import Mathlib

set_option autoImplicit false

/-!
Verification development for the qmd storage & hybrid retrieval engine.

The sync algorithm (`index_files`), the embedding batch loop (`handle_embed`),
the query-expansion and rerank glue (`handle_qsearch`) and the line filters of
the two `get` front ends are embedded from `qmd/src/main.rs` and
`qmd-mcp/src/server.rs`.  The storage layer (`store.rs`) and the LLM helper
module (`llm.rs`) are not part of the sources at hand, so their operations are
modelled from the specification (sections 4.1, 4.2 and 4.7), each such
definition marked `Modelled from the spec:` in its doc comment.
-/

/-- Split a character list at newline characters (an executable counterpart
of `String.splitOn "\n"`; the accumulator holds the current segment
reversed). -/
def splitNlAux : List Char → List Char → List (List Char)
  | [], acc => [acc.reverse]
  | c :: rest, acc =>
    if c = '\n' then acc.reverse :: splitNlAux rest []
    else splitNlAux rest (c :: acc)

/-- Strip one trailing carriage return. -/
def stripCR (l : List Char) : List Char :=
  if l.getLast? = some '\r' then l.dropLast else l

/-- Lines of a string following the semantics of Rust's `str::lines`:
split on a newline, drop the trailing empty segment produced by a final
newline, and strip one trailing carriage return from each line. -/
def rustLines (b : String) : List String :=
  let parts := splitNlAux b.data []
  let parts := if parts.getLast? = some [] then parts.dropLast else parts
  parts.map (fun l => String.mk (stripCR l))

/-- Modelled from the spec: path normalization ("handelization") collapses
path separators to forward slashes and removes any leading slash, so the same
logical path always maps to the same catalog key (spec 4.2); `store.rs` is not
among the sources. -/
def Store.handelize (p : String) : String :=
  String.mk ((p.data.map (fun c => if c = '\\' then '/' else c)).dropWhile (fun c => c = '/'))

/-- Modelled from the spec: the content hash is a deterministic digest of the
text, assumed collision-resistant (spec 4.1: equal text iff equal hash, a
collision is treated as fatal); it is therefore idealized as an injective
function of the text.  `store.rs` is not among the sources. -/
def Store.hash_content (s : String) : String :=
  String.append "sha256:" s

/-- Modelled from the spec: title extraction returns the first heading of the
document or a fallback (spec: "extracted title (first heading or fallback)").
What the verified claims rely on is only that it is a pure function of the
content.  `store.rs` is not among the sources. -/
def Store.extract_title (content : String) : String :=
  match (rustLines content).find? (fun l => l.data.take 2 == ['#', ' ']) with
  | some l => String.mk (l.data.drop 2)
  | none => "Untitled"

theorem hash_content_injective (a b : String) (h : Store.hash_content a = Store.hash_content b) :
    a = b := by
  have hd : ("sha256:" : String).data ++ a.data = ("sha256:" : String).data ++ b.data := by
    have := congrArg String.data h
    simpa [Store.hash_content, String.append] using this
  have hab : a.data = b.data := List.append_cancel_left hd
  cases a; cases b; exact congrArg String.mk hab

/-- A content-store row: content hash, raw body, insertion timestamp
(spec 3, Content). -/
structure ContentRow where
  hash : String
  body : String
  created_at : String
deriving Repr, DecidableEq

/-- A document-catalog row (spec 3, Document).  The short stable docid is
derived deterministically from the identity (collection, normalized path) and
resolvable back to it, so it is modelled as that identity pair itself rather
than as an opaque string. -/
structure Doc where
  collection : String
  path : String
  title : String
  hash : String
  active : Bool
  created_at : String
  modified_at : String
deriving Repr, DecidableEq

/-- The docid format: modelled as the identity pair it is derived from. -/
def Docid := String × String
deriving instance DecidableEq, Repr for Docid

/-- The persistent store state visible to the sync engine: the
content-addressed blob table and the document catalog. -/
structure Catalog where
  contents : List ContentRow
  docs : List Doc
deriving Repr, DecidableEq

/-- Modelled from the spec: idempotent content insert, a no-op when the hash
is already present (spec 4.1, `put`). -/
def Catalog.insert_content (st : Catalog) (hash body now : String) : Catalog :=
  if st.contents.any (fun r => r.hash == hash) then st
  else { st with contents := st.contents ++ [⟨hash, body, now⟩] }

/-- Whether a catalog row is the active document at (collection, path). -/
def Doc.matchesActive (d : Doc) (c p : String) : Bool :=
  d.collection == c && d.path == p && d.active

/-- Whether a catalog row has the identity (collection, path), active or not. -/
def Doc.matchesKey (d : Doc) (c p : String) : Bool :=
  d.collection == c && d.path == p

/-- Modelled from the spec: `find_active(collection, path) -> (docid, hash,
title)?`, resolving only the active document at the key (spec 4.2). -/
def Catalog.find_active_document (st : Catalog) (c p : String) :
    Option (Docid × String × String) :=
  (st.docs.find? (fun d => d.matchesActive c p)).map
    (fun d => ((d.collection, d.path), d.hash, d.title))

/-- Modelled from the spec: inserting a document at (collection, path).  When
a (soft-deleted) row already exists at that identity it is revived in place —
active again, hash/title/modified_at refreshed, docid and created_at kept
(spec 4.2: reactivation restores active=true and refreshes the hash, without
identifier churn); otherwise a fresh active row is appended. -/
def Catalog.insert_document (st : Catalog) (c p title hash created modified : String) : Catalog :=
  if st.docs.any (fun d => d.matchesKey c p) then
    { st with
      docs := st.docs.map (fun d =>
        if d.matchesKey c p then
          { d with title := title, hash := hash, active := true, modified_at := modified }
        else d) }
  else
    { st with docs := st.docs ++ [⟨c, p, title, hash, true, created, modified⟩] }

/-- Modelled from the spec: update the row identified by the docid, setting
hash, title and modified_at in place, docid unchanged (spec 4.2). -/
def Catalog.update_document (st : Catalog) (docid : Docid) (title hash now : String) : Catalog :=
  { st with
    docs := st.docs.map (fun d =>
      if (d.collection, d.path) = docid then
        { d with title := title, hash := hash, modified_at := now }
      else d) }

/-- Modelled from the spec: update only the title (and the last-modified
timestamp) of the row identified by the docid (spec 4.2, title drift). -/
def Catalog.update_document_title (st : Catalog) (docid : Docid) (title now : String) : Catalog :=
  { st with
    docs := st.docs.map (fun d =>
      if (d.collection, d.path) = docid then
        { d with title := title, modified_at := now }
      else d) }

/-- Modelled from the spec: soft delete — the row is retained with
active=false (spec 4.2). -/
def Catalog.deactivate_document (st : Catalog) (c p : String) : Catalog :=
  { st with
    docs := st.docs.map (fun d =>
      if d.matchesKey c p then { d with active := false } else d) }

/-- Modelled from the spec: the paths of the collection's active documents
(spec 4.2, used by the sync engine's removal pass). -/
def Catalog.get_active_document_paths (st : Catalog) (c : String) : List String :=
  (st.docs.filter (fun d => d.collection == c && d.active)).map (fun d => d.path)

/-- A file presented to a sync pass: its relative path as produced by the
directory walk, and its content (`none` when `fs::read_to_string` fails, i.e.
the file is unreadable or not valid UTF-8). -/
structure MFile where
  rel_path : String
  content : Option String
deriving Repr, DecidableEq

/-- The four counters reported by a sync pass
(`main.rs`, `index_files`, lines 1828-1886). -/
structure SyncReport where
  indexed : Nat
  updated : Nat
  unchanged : Nat
  removed : Nat
deriving Repr, DecidableEq

/-- The per-file body of the sync loop (`main.rs` lines 1833-1871): the
normalized path is recorded as seen before the read is attempted; an
unreadable file is skipped; otherwise the three reconciliation branches run
against the catalog. -/
def syncStep (coll now : String) (acc : Catalog × SyncReport × List String) (f : MFile) :
    Catalog × SyncReport × List String :=
  let st := acc.1
  let rep := acc.2.1
  let normalized := Store.handelize f.rel_path
  let seen := normalized :: acc.2.2
  match f.content with
  | none => (st, rep, seen)
  | some content =>
    let hash := Store.hash_content content
    let title := Store.extract_title content
    match st.find_active_document coll normalized with
    | some (doc_id, existing_hash, existing_title) =>
      if existing_hash = hash then
        (if existing_title ≠ title then st.update_document_title doc_id title now else st,
         { rep with unchanged := rep.unchanged + 1 }, seen)
      else
        ((st.insert_content hash content now).update_document doc_id title hash now,
         { rep with updated := rep.updated + 1 }, seen)
    | none =>
      ((st.insert_content hash content now).insert_document coll normalized title hash now now,
       { rep with indexed := rep.indexed + 1 }, seen)

/-- The removal pass (`main.rs` lines 1874-1882): iterate over a snapshot of
the collection's active paths and deactivate (and count) every one not seen
in this pass. -/
def deactStep (coll : String) (seen : List String) (acc : Catalog × Nat) (p : String) :
    Catalog × Nat :=
  if seen.contains p then acc
  else (acc.1.deactivate_document coll p, acc.2 + 1)

def deactivatePass (coll : String) (seen : List String) (st : Catalog) : Catalog × Nat :=
  (st.get_active_document_paths coll).foldl (deactStep coll seen) (st, 0)

/-- The sync pass over one collection (`main.rs`, `index_files`): the matched
file list is processed in order, then unseen active paths are deactivated.
`none` models the early return taken when no file matched the pattern
(lines 1823-1826), in which case neither loop runs. -/
def index_files (coll now : String) (st : Catalog) (files : List MFile) :
    Option (Catalog × SyncReport) :=
  if files = [] then none
  else
    let r := files.foldl (syncStep coll now) (st, ⟨0, 0, 0, 0⟩, [])
    let d := deactivatePass coll r.2.2 r.1
    some (d.1, { r.2.1 with removed := d.2 })

/-! ## Query expansion, RRF fusion, rerank glue (qsearch pipeline) -/

/-- The type tag routing an expanded sub-query to a search channel
(spec 4.7; `llm.rs` is not among the sources). -/
inductive QueryType where
  | Lex
  | Vec
  | Hyde
deriving Repr, DecidableEq

/-- A typed sub-query produced by query expansion (spec 4.7). -/
structure Queryable where
  text : String
  query_type : QueryType
deriving Repr, DecidableEq

/-- A lexical sub-query. -/
def Queryable.lex (q : String) : Queryable := ⟨q, QueryType.Lex⟩

/-- A vector sub-query. -/
def Queryable.vec (q : String) : Queryable := ⟨q, QueryType.Vec⟩

/-- Modelled from the spec: the capability-free expansion derives variants
deterministically from the raw query — the query itself tagged Lex and Vec
(spec 4.7); `llm.rs` is not among the sources. -/
def expand_query_simple (q : String) : List Queryable :=
  [Queryable.lex q, Queryable.vec q]

/-- Step 1 of `handle_qsearch` (`main.rs` lines 1396-1408), with the external
generation capability abstracted: `avail` is `GenerationEngine::is_available()`,
the outer `Except` is the outcome of `GenerationEngine::load_default()` and the
inner one the outcome of `engine.expand_query(query, true)`. -/
def qsearchExpansion (query : String) (no_expand avail : Bool)
    (gen : Except Unit (Except Unit (List Queryable))) : List Queryable :=
  if no_expand || !avail then [Queryable.lex query, Queryable.vec query]
  else
    match gen with
    | Except.ok (Except.ok q) => q
    | Except.ok (Except.error _) => expand_query_simple query
    | Except.error _ => expand_query_simple query

/-- Modelled from the spec: the RRF contribution of one ranked list to one
document — `1/(k+r)` at 1-indexed rank `r` when the document appears in the
list, nothing otherwise (spec 4.7); `llm.rs` is not among the sources.
Documents are identified by their file identifier string. -/
def rrfContribution (k : Nat) (l : List String) (d : String) : ℚ :=
  if d ∈ l then 1 / ((k : ℚ) + (l.indexOf d + 1)) else 0

/-- Modelled from the spec: the fused RRF score computed by
`hybrid_search_rrf` for a document, given the lexical and the vector ranked
lists — the sum of the per-list contributions (spec 4.7); `llm.rs` is not
among the sources. -/
def hybrid_search_rrf_score (k : Nat) (fts vec : List String) (d : String) : ℚ :=
  rrfContribution k fts d + rrfContribution k vec d

/-- One fused candidate as carried by the qsearch pipeline
(`RrfResult` of `llm.rs`; only the fields `handle_qsearch` reads). -/
structure RrfR where
  file : String
  display_path : String
  title : String
  body : String
  score : ℚ
deriving Repr, DecidableEq

/-- Step 4 of `handle_qsearch` (`main.rs` lines 1460-1484), with the external
rerank capability abstracted: `avail` is `RerankEngine::is_available()`, `load`
the outcome of `RerankEngine::load_default()`, and `call` the outcome of
`reranker.rerank(query, &docs)`, reduced to the ordered file identifiers it
returns.  On success the loop rebuilds the candidate list in the returned
order, keeping only candidates the reranker returned. -/
def applyRerank (no_rerank avail : Bool)
    (load : Except Unit Unit) (call : Except Unit (List String))
    (rrf_results : List RrfR) : List RrfR :=
  if !no_rerank && avail && !rrf_results.isEmpty then
    match load with
    | Except.ok _ =>
      match call with
      | Except.ok rerankedFiles =>
        rerankedFiles.filterMap (fun f => rrf_results.find? (fun r => r.file == f))
      | Except.error _ => rrf_results
    | Except.error _ => rrf_results
  else rrf_results

/-! ## Embedding pipeline (`handle_embed`) -/

/-- A chunk as returned by token-based chunking (`TokenChunk` of `llm.rs`;
only the fields `handle_embed` reads). -/
structure TokenChunk where
  text : String
  tokens : Nat
  pos : Nat
  bytes : Nat
deriving Repr, DecidableEq

/-- One row of the pending-embedding query
(`get_hashes_needing_embedding`): content hash, display path, content. -/
structure PendingDoc where
  hash : String
  path : String
  content : String
deriving Repr, DecidableEq

/-- The per-chunk work item built by `handle_embed`
(`main.rs` lines 1056-1065). -/
structure ChunkItem where
  hash : String
  title : String
  text : String
  seq : Nat
  pos : Nat
  tokens : Nat
  bytes : Nat
  display_name : String
deriving Repr, DecidableEq

/-- The chunks contributed by one pending document (`main.rs` lines
1070-1110): an empty document is skipped; successful token chunking yields
one item per chunk, numbered by enumeration order; a chunking failure falls
back to a single whole-document chunk with sequence 0, byte position 0 and an
estimated token count of one quarter of the byte length.  The tokenizer-backed
`chunk_document_by_tokens` lives in `llm.rs` and is abstracted as `chunker`. -/
def docChunks (chunker : String → Except Unit (List TokenChunk)) (p : PendingDoc) :
    List ChunkItem :=
  if p.content = "" then []
  else
    let title := Store.extract_title p.content
    match chunker p.content with
    | Except.ok chunks =>
      chunks.enum.map (fun sc =>
        ⟨p.hash, title, sc.2.text, sc.1, sc.2.pos, sc.2.tokens, sc.2.bytes, p.path⟩)
    | Except.error _ =>
      [⟨p.hash, title, p.content, 0, 0, p.content.utf8ByteSize / 4,
        p.content.utf8ByteSize, p.path⟩]

/-- The chunk-collection loop of `handle_embed` (`main.rs` lines 1067-1110). -/
def buildChunks (chunker : String → Except Unit (List TokenChunk))
    (pending : List PendingDoc) : List ChunkItem :=
  pending.foldl (fun acc p => acc ++ docChunks chunker p) []

/-- The embedding vector table: its dimensionality, fixed at the first
insert, and its rows (hash, seq, pos, vector, model, timestamp)
(spec 3 and 4.6; `store.rs` is not among the sources). -/
structure VecStore where
  dims : Option Nat
  rows : List (String × Nat × Nat × List ℚ × String × String)
deriving Repr, DecidableEq

/-- Modelled from the spec: the first call fixes the vector table's
dimensionality (spec 4.6); `store.rs` is not among the sources. -/
def VecStore.ensure_vector_table (st : VecStore) (d : Nat) : VecStore :=
  match st.dims with
  | none => { st with dims := some d }
  | some _ => st

/-- Modelled from the spec: one embedding row per chunk; inserting a vector
whose dimension differs from the table's fixed dimensionality — or inserting
before any dimensionality is fixed — fails with a dimension-mismatch error
(spec 3 Embedding invariant, 4.6 and 8); `store.rs` is not among the
sources.  `handle_embed` propagates this failure with `?`
(`main.rs` lines 1154-1161 and 1171-1178). -/
def VecStore.insert_embedding (st : VecStore) (hash : String) (seq pos : Nat)
    (v : List ℚ) (model now : String) : Except String VecStore :=
  match st.dims with
  | none => Except.error "no vector table"
  | some d =>
    if v.length = d then
      Except.ok { st with rows := st.rows ++ [(hash, seq, pos, v, model, now)] }
    else Except.error "dimension mismatch" 

/-- The result of one embedding call
(`EmbeddingResult` of `llm.rs`, as read by `handle_embed`). -/
structure EmbeddingResult where
  embedding : List ℚ
  model : String
deriving Repr, DecidableEq

/-- Modelled from the spec: the document-side framing applied before encoding
(spec 6 allows any formatting that is consistent for a model);
`llm.rs` is not among the sources. -/
def format_doc_for_embedding (text : String) (title : Option String) : String :=
  match title with
  | some t => String.append (String.append (String.append "title: " t) "\n") text
  | none => text

/-- The per-chunk body of the embedding loop (`main.rs` lines 1166-1192):
an embedding failure only bumps the error count, while a success inserts a
row with `?` (lines 1171-1178) — a store insert error, such as a dimension
mismatch, aborts the loop.  The accumulator is
(table, chunks_embedded, errors). -/
def embedStep (embed : String → Except String EmbeddingResult) (now : String)
    (acc : VecStore × Nat × Nat) (chunk : ChunkItem) :
    Except String (VecStore × Nat × Nat) :=
  match embed (format_doc_for_embedding chunk.text (some chunk.title)) with
  | Except.ok result =>
    match acc.1.insert_embedding chunk.hash chunk.seq chunk.pos
        result.embedding result.model now with
    | Except.ok st2 => Except.ok (st2, acc.2.1 + 1, acc.2.2)
    | Except.error e => Except.error e
  | Except.error _ => Except.ok (acc.1, acc.2.1, acc.2.2 + 1)

/-- The chunk loop of `handle_embed` over the chunks after the first
(`main.rs` lines 1166-1228): runs `embedStep` left to right and propagates
a store insert failure. -/
def embedLoop (embed : String → Except String EmbeddingResult) (now : String) :
    VecStore × Nat × Nat → List ChunkItem → Except String (VecStore × Nat × Nat)
  | acc, [] => Except.ok acc
  | acc, chunk :: rest =>
    match embedStep embed now acc chunk with
    | Except.ok acc2 => embedLoop embed now acc2 rest
    | Except.error e => Except.error e

/-- The embedding loop of `handle_embed` (`main.rs` lines 1138-1228), with the
embedding capability abstracted as `embed`.  The first chunk is embedded with
the error propagated (the `?` on line 1140), its dimensionality fixes the
vector table, and its row is inserted with the error propagated (the `?` on
lines 1154-1161); every later chunk runs `embedStep` through `embedLoop`.
Returns the final table, the number of chunks embedded, and the number of
per-chunk embedding errors. -/
def embedBatch (embed : String → Except String EmbeddingResult) (st : VecStore)
    (all_chunks : List ChunkItem) (now : String) :
    Except String (VecStore × Nat × Nat) :=
  match all_chunks with
  | [] => Except.ok (st, 0, 0)
  | first :: rest =>
    match embed (format_doc_for_embedding first.text (some first.title)) with
    | Except.error e => Except.error e
    | Except.ok first_result =>
      let st := st.ensure_vector_table first_result.embedding.length
      match st.insert_embedding first.hash first.seq first.pos
          first_result.embedding first_result.model now with
      | Except.error e => Except.error e
      | Except.ok st2 => embedLoop embed now (st2, 1, 0) rest

/-- The distinct terminal outcomes of `handle_embed`. -/
inductive EmbedOutcome where
  | alreadyEmbedded
  | nothingToEmbed
  | completed (chunks_embedded : Nat) (errors : Nat)
deriving Repr, DecidableEq

/-- The embed operation (`main.rs`, `handle_embed`, without the `--force`
clearing and the terminal reporting): an empty pending set returns early; so
does an all-empty chunk list ("No non-empty documents to embed"), before the
vector table is ever touched; otherwise the embedding loop runs. -/
def handle_embed (chunker : String → Except Unit (List TokenChunk))
    (embed : String → Except String EmbeddingResult)
    (st : VecStore) (pending : List PendingDoc) (now : String) :
    Except String (VecStore × EmbedOutcome) :=
  if pending = [] then Except.ok (st, EmbedOutcome.alreadyEmbedded)
  else
    let all_chunks := buildChunks chunker pending
    if all_chunks = [] then Except.ok (st, EmbedOutcome.nothingToEmbed)
    else
      match embedBatch embed st all_chunks now with
      | Except.ok (st', a, b) => Except.ok (st', EmbedOutcome.completed a b)
      | Except.error e => Except.error e

/-! ## Line filtering of the two `get` front ends -/

/-- The line filtering of the CLI `get` (`main.rs`, `handle_get`, lines
590-599): filtering runs when either `from_line` or `max_lines` is given; the
start defaults to line 1 and the slice end is clamped to the line count. -/
def cli_line_filter (body : String) (from_line max_lines : Option Nat) : String :=
  let start_line := from_line.getD 1
  if from_line.isSome || max_lines.isSome then
    let lines := rustLines body
    let start := start_line - 1
    let e := match max_lines with
      | some n => min (start + n) lines.length
      | none => lines.length
    String.intercalate "\n" ((lines.drop start).take (e - start))
  else body

/-- The line filtering of the MCP server's `get` tool (`qmd-mcp/src/server.rs`
lines 199-208): the whole filter is guarded by `from_line` being present;
`max_lines` only shapes the slice end inside that branch, and an out-of-range
slice collapses to the empty string (`unwrap_or_default`). -/
def mcp_line_filter (body : String) (from_line max_lines : Option Nat) : String :=
  match from_line with
  | some fr =>
    let lines := rustLines body
    let start := fr - 1
    let e := match max_lines with
      | some m => start + m
      | none => lines.length
    if start ≤ min e lines.length then
      String.intercalate "\n" ((lines.drop start).take (min e lines.length - start))
    else ""
  | none => body

/-! ## Helper lemmas -/

theorem foldl_append_eq {α β : Type} (f : α → List β) :
    ∀ (l : List α) (acc : List β),
      l.foldl (fun a p => a ++ f p) acc = acc ++ (l.map f).flatten := by
  intro l
  induction l with
  | nil => intro acc; simp
  | cons p rest ih => intro acc; simp [ih, List.append_assoc]

theorem buildChunks_eq_flatten (chunker : String → Except Unit (List TokenChunk))
    (pending : List PendingDoc) :
    buildChunks chunker pending = (pending.map (docChunks chunker)).flatten := by
  simpa using foldl_append_eq (docChunks chunker) pending []

theorem docChunks_hash (chunker : String → Except Unit (List TokenChunk))
    (p : PendingDoc) (ch : ChunkItem) (hch : ch ∈ docChunks chunker p) :
    p.content ≠ "" ∧ ch.hash = p.hash := by
  unfold docChunks at hch
  by_cases hc : p.content = ""
  · simp [hc] at hch
  · refine ⟨hc, ?_⟩
    simp only [hc, if_neg, ite_false] at hch
    rcases h : chunker p.content with e | chunks
    · rw [h] at hch
      simp at hch
      rw [hch]
    · rw [h] at hch
      simp at hch
      obtain ⟨a, b, hab, hback⟩ := hch
      rw [← hback]

theorem buildChunks_hash (chunker : String → Except Unit (List TokenChunk))
    (pending : List PendingDoc) (ch : ChunkItem) (hch : ch ∈ buildChunks chunker pending) :
    ∃ p ∈ pending, p.content ≠ "" ∧ ch.hash = p.hash := by
  rw [buildChunks_eq_flatten] at hch
  rw [List.mem_flatten] at hch
  obtain ⟨l, hl, hchl⟩ := hch
  rw [List.mem_map] at hl
  obtain ⟨p, hp, rfl⟩ := hl
  exact ⟨p, hp, docChunks_hash chunker p ch hchl⟩

/-- Claim C6: when token-based chunking of a document fails (tokenizer
unavailable), the embed pipeline falls back to exactly one chunk covering the
whole document, with sequence number 0, byte position 0 and an estimated
token count of the content byte length divided by 4, rather than failing the
document; and the pipeline's chunk list is the concatenation of these per-
document chunk lists. -/
theorem C6_chunking_fallback :
    (∀ (chunker : String → Except Unit (List TokenChunk)) (p : PendingDoc),
      p.content ≠ "" → chunker p.content = Except.error () →
      docChunks chunker p =
        [⟨p.hash, Store.extract_title p.content, p.content, 0, 0,
          p.content.utf8ByteSize / 4, p.content.utf8ByteSize, p.path⟩]) ∧
    (∀ (chunker : String → Except Unit (List TokenChunk)) (pending : List PendingDoc),
      buildChunks chunker pending = (pending.map (docChunks chunker)).flatten) := by
  constructor
  · intro chunker p hne herr
    unfold docChunks
    simp [hne, herr]
  · exact buildChunks_eq_flatten

/-- Claim C6 witness: the fallback at a concrete document whose chunker
fails. -/
theorem C6_chunking_fallback_witness :
    docChunks (fun _ => Except.error ()) ⟨"h1", "a.md", "hello"⟩ =
      [⟨"h1", "Untitled", "hello", 0, 0, 1, 5, "a.md"⟩] := by
  have h := C6_chunking_fallback.1 (fun _ => Except.error ()) ⟨"h1", "a.md", "hello"⟩
    (by decide) rfl
  rw [h]
  decide

/-- Claim C7: in the hybrid qsearch pipeline, query expansion never aborts
the search — when the generation capability is unavailable, fails to load, or
its expansion call errors, the expanded query set is the capability-free
expansion: deterministic variants of the raw query, the query itself tagged
Lex and Vec. -/
theorem C7_expansion_fallback :
    ∀ (query : String) (no_expand : Bool)
      (gen : Except Unit (Except Unit (List Queryable))),
      (expand_query_simple query = [Queryable.lex query, Queryable.vec query]) ∧
      (qsearchExpansion query no_expand false gen = expand_query_simple query) ∧
      (∀ e, gen = Except.error e →
        qsearchExpansion query no_expand true gen = expand_query_simple query) ∧
      (∀ e, gen = Except.ok (Except.error e) →
        qsearchExpansion query no_expand true gen = expand_query_simple query) := by
  intro query no_expand gen
  refine ⟨rfl, ?_, ?_, ?_⟩
  · cases no_expand <;> rfl
  · intro e he
    subst he
    cases no_expand <;> rfl
  · intro e he
    subst he
    cases no_expand <;> rfl

/-- Claim C7 witness: the fallbacks at a concrete query. -/
theorem C7_expansion_fallback_witness :
    qsearchExpansion "rust errors" false true (Except.error ()) =
        expand_query_simple "rust errors" ∧
      qsearchExpansion "rust errors" false true (Except.ok (Except.error ())) =
        expand_query_simple "rust errors" := by
  exact ⟨(C7_expansion_fallback "rust errors" false (Except.error ())).2.2.1 () rfl,
    (C7_expansion_fallback "rust errors" false (Except.ok (Except.error ()))).2.2.2 () rfl⟩

/-- Claim C10: in the MCP server's get tool, `max_lines` limits the returned
lines only when `from_line` is also provided — with `from_line` absent the
full body is returned whatever `max_lines` says (while providing
`from_line = 1` does activate it) — whereas the CLI get applies `max_lines`
on its own, starting at line 1. -/
theorem C10_get_max_lines_scope :
    (∀ (body : String) (max_lines : Option Nat),
      mcp_line_filter body none max_lines = body) ∧
    (∀ (body : String) (n : Nat),
      cli_line_filter body none (some n) =
        String.intercalate "\n" ((rustLines body).take n)) ∧
    (∀ (body : String) (n : Nat),
      mcp_line_filter body (some 1) (some n) =
        String.intercalate "\n" ((rustLines body).take n)) := by
  refine ⟨fun body max_lines => rfl, ?_, ?_⟩
  · intro body n
    have ht : (rustLines body).take (min n (rustLines body).length) = (rustLines body).take n := by
      rw [List.take_eq_take]
      simp [min_assoc]
    simp [cli_line_filter, ht]
  · intro body n
    have ht : (rustLines body).take (min n (rustLines body).length) = (rustLines body).take n := by
      rw [List.take_eq_take]
      simp [min_assoc]
    simp [mcp_line_filter, ht]

theorem filterMap_find?_file_map (fs : List String) (l : List RrfR) :
    (fs.filterMap (fun f => l.find? (fun r => r.file == f))).map (fun r => r.file) =
      fs.filter (fun f => l.any (fun r => r.file == f)) := by
  induction fs with
  | nil => rfl
  | cons f rest ih =>
    rcases h : l.find? (fun r => r.file == f) with _ | r
    · have hany : l.any (fun r => r.file == f) = false := by
        rcases hh : l.any (fun r => r.file == f) with _ | _
        · rfl
        · obtain ⟨r, hr, hrf⟩ := List.any_eq_true.mp hh
          exact absurd hrf (by simpa using List.find?_eq_none.mp h r hr)
      simp [List.filterMap_cons, h, List.filter_cons, hany, ih]
    · have hp := List.find?_some h
      have hf : r.file = f := by simpa using hp
      have hany : l.any (fun r => r.file == f) = true := by
        refine List.any_eq_true.mpr ⟨r, List.mem_of_find?_eq_some h, hp⟩
      simp [List.filterMap_cons, h, List.filter_cons, hany, ih, hf]

theorem filterMap_find?_mem (fs : List String) (l : List RrfR) (r : RrfR)
    (hr : r ∈ fs.filterMap (fun f => l.find? (fun s => s.file == f))) : r ∈ l := by
  rw [List.mem_filterMap] at hr
  obtain ⟨f, _, hfind⟩ := hr
  exact List.mem_of_find?_eq_some hfind

/-- Claim C8: in the hybrid qsearch pipeline with reranking enabled, a
successful rerank call reorders the fused candidates to the returned ordering
— the surviving files are exactly the returned files that name a fused
candidate, in the returned order, every candidate coming from the fused list
— and every fused candidate the reranker did not return is dropped; when the
capability is unavailable, fails to load, or errors, the pre-rerank fused
order is returned unchanged. -/
theorem C8_rerank_integration :
    ∀ (no_rerank avail : Bool) (load : Except Unit Unit)
      (call : Except Unit (List String)) (rrf_results : List RrfR),
      (avail = false → applyRerank no_rerank avail load call rrf_results = rrf_results) ∧
      (∀ e, load = Except.error e →
        applyRerank no_rerank avail load call rrf_results = rrf_results) ∧
      (∀ e, call = Except.error e → load = Except.ok () →
        applyRerank no_rerank avail load call rrf_results = rrf_results) ∧
      (∀ fs, no_rerank = false → avail = true → load = Except.ok () →
        call = Except.ok fs →
        applyRerank no_rerank avail load call rrf_results =
            fs.filterMap (fun f => rrf_results.find? (fun r => r.file == f)) ∧
          (applyRerank no_rerank avail load call rrf_results).map (fun r => r.file) =
            fs.filter (fun f => rrf_results.any (fun r => r.file == f)) ∧
          (∀ r ∈ applyRerank no_rerank avail load call rrf_results, r ∈ rrf_results)) := by
  intro no_rerank avail load call rrf_results
  refine ⟨?_, ?_, ?_, ?_⟩
  · rintro rfl
    simp [applyRerank]
  · rintro e rfl
    cases no_rerank <;> cases avail <;> simp [applyRerank]
  · rintro e rfl rfl
    cases no_rerank <;> cases avail <;> simp [applyRerank]
  · rintro fs rfl rfl rfl rfl
    rcases hrr : rrf_results.isEmpty with _ | _
    · refine ⟨by simp [applyRerank, hrr], ?_, ?_⟩
      · rw [show applyRerank false true (Except.ok ()) (Except.ok fs) rrf_results =
            fs.filterMap (fun f => rrf_results.find? (fun r => r.file == f)) from by
              simp [applyRerank, hrr]]
        exact filterMap_find?_file_map fs rrf_results
      · intro r hr
        rw [show applyRerank false true (Except.ok ()) (Except.ok fs) rrf_results =
            fs.filterMap (fun f => rrf_results.find? (fun r => r.file == f)) from by
              simp [applyRerank, hrr]] at hr
        exact filterMap_find?_mem fs rrf_results r hr
    · have hempty : rrf_results = [] := by
        simpa [List.isEmpty_iff] using hrr
      subst hempty
      refine ⟨?_, ?_, ?_⟩
      · simp [applyRerank]
      · simp [applyRerank]
      · intro r hr
        simp [applyRerank] at hr

theorem ensure_vector_table_dims (st : VecStore) (d : Nat)
    (h : st.dims = none ∨ st.dims = some d) :
    (st.ensure_vector_table d).dims = some d := by
  rcases h with h | h <;> simp [VecStore.ensure_vector_table, h]

theorem insert_embedding_ok (st : VecStore) (hash : String) (seq pos : Nat)
    (v : List ℚ) (model now : String) (st2 : VecStore)
    (h : st.insert_embedding hash seq pos v model now = Except.ok st2) :
    st2.rows = st.rows ++ [(hash, seq, pos, v, model, now)] ∧ st2.dims = st.dims := by
  unfold VecStore.insert_embedding at h
  rcases hd : st.dims with _ | d
  · rw [hd] at h
    exact absurd h (by simp)
  · rw [hd] at h
    simp only at h
    by_cases hv : v.length = d
    · rw [if_pos hv] at h
      injection h with h2
      rw [← h2]
      exact ⟨rfl, rfl⟩
    · rw [if_neg hv] at h
      exact absurd h (by simp)

theorem insert_embedding_dims_ok (st : VecStore) (hash : String) (seq pos : Nat)
    (v : List ℚ) (model now : String) (d : Nat)
    (hd : st.dims = some d) (hv : v.length = d) :
    st.insert_embedding hash seq pos v model now =
      Except.ok { st with rows := st.rows ++ [(hash, seq, pos, v, model, now)] } := by
  unfold VecStore.insert_embedding
  rw [hd]
  simp only
  rw [if_pos hv]

theorem insert_embedding_mismatch (st : VecStore) (hash : String) (seq pos : Nat)
    (v : List ℚ) (model now : String) (d : Nat)
    (hd : st.dims = some d) (hv : v.length ≠ d) :
    st.insert_embedding hash seq pos v model now = Except.error "dimension mismatch" := by
  unfold VecStore.insert_embedding
  rw [hd]
  simp only
  rw [if_neg hv]

theorem embedLoop_complete (embed : String → Except String EmbeddingResult)
    (now : String) (d : Nat) :
    ∀ (l : List ChunkItem) (acc : VecStore × Nat × Nat),
      acc.1.dims = some d →
      (∀ c ∈ l, ∀ r : EmbeddingResult,
        embed (format_doc_for_embedding c.text (some c.title)) = Except.ok r →
        r.embedding.length = d) →
      ∃ st2 : VecStore, st2.dims = some d ∧
        embedLoop embed now acc l = Except.ok (st2,
          acc.2.1 + (l.filter (fun c =>
            (embed (format_doc_for_embedding c.text (some c.title))).isOk)).length,
          acc.2.2 + (l.filter (fun c =>
            !(embed (format_doc_for_embedding c.text (some c.title))).isOk)).length) := by
  intro l
  induction l with
  | nil =>
    intro acc hdims _
    exact ⟨acc.1, hdims, rfl⟩
  | cons c rest ih =>
    intro acc hdims hall
    rcases hc : embed (format_doc_for_embedding c.text (some c.title)) with e | r
    · have hstep : embedStep embed now acc c = Except.ok (acc.1, acc.2.1, acc.2.2 + 1) := by
        simp only [embedStep, hc]
      obtain ⟨st2, hd2, heq⟩ := ih (acc.1, acc.2.1, acc.2.2 + 1) hdims
        (fun c2 hc2 r2 hr2 => hall c2 (List.mem_cons_of_mem c hc2) r2 hr2)
      refine ⟨st2, hd2, ?_⟩
      rw [show embedLoop embed now acc (c :: rest) =
          embedLoop embed now (acc.1, acc.2.1, acc.2.2 + 1) rest from by
        simp only [embedLoop]
        rw [hstep]]
      rw [heq, List.filter_cons, List.filter_cons]
      simp only [hc, Except.isOk, Except.toBool, Bool.not_false, if_neg, if_pos]
      simp
      omega
    · have hrd : r.embedding.length = d := hall c (List.mem_cons_self c rest) r hc
      have hins := insert_embedding_dims_ok acc.1 c.hash c.seq c.pos r.embedding
        r.model now d hdims hrd
      have hstep : embedStep embed now acc c = Except.ok
          ({ acc.1 with rows := acc.1.rows ++
            [(c.hash, c.seq, c.pos, r.embedding, r.model, now)] },
            acc.2.1 + 1, acc.2.2) := by
        simp only [embedStep, hc, hins]
      obtain ⟨st2, hd2, heq⟩ := ih ({ acc.1 with rows := acc.1.rows ++
          [(c.hash, c.seq, c.pos, r.embedding, r.model, now)] }, acc.2.1 + 1, acc.2.2)
        hdims (fun c2 hc2 r2 hr2 => hall c2 (List.mem_cons_of_mem c hc2) r2 hr2)
      refine ⟨st2, hd2, ?_⟩
      rw [show embedLoop embed now acc (c :: rest) =
          embedLoop embed now ({ acc.1 with rows := acc.1.rows ++
            [(c.hash, c.seq, c.pos, r.embedding, r.model, now)] },
            acc.2.1 + 1, acc.2.2) rest from by
        simp only [embedLoop]
        rw [hstep]]
      rw [heq, List.filter_cons, List.filter_cons]
      simp only [hc, Except.isOk, Except.toBool, if_pos]
      simp
      omega

theorem embedLoop_append (embed : String → Except String EmbeddingResult) (now : String) :
    ∀ (l1 l2 : List ChunkItem) (acc : VecStore × Nat × Nat),
      embedLoop embed now acc (l1 ++ l2) =
        match embedLoop embed now acc l1 with
        | Except.ok acc2 => embedLoop embed now acc2 l2
        | Except.error e => Except.error e := by
  intro l1
  induction l1 with
  | nil => intro l2 acc; rfl
  | cons c rest ih =>
    intro l2 acc
    rw [List.cons_append]
    rcases hs : embedStep embed now acc c with e | acc2
    · simp only [embedLoop]
      rw [hs]
    · simp only [embedLoop]
      rw [hs]
      exact ih l2 acc2

theorem embedLoop_rows (embed : String → Except String EmbeddingResult) (now : String) :
    ∀ (l : List ChunkItem) (acc : VecStore × Nat × Nat) (st2 : VecStore) (a b : Nat),
      embedLoop embed now acc l = Except.ok (st2, a, b) →
      ∀ r2 ∈ st2.rows, r2 ∈ acc.1.rows ∨ r2.1 ∈ l.map (fun c => c.hash) := by
  intro l
  induction l with
  | nil =>
    intro acc st2 a b h r2 hr2
    simp only [embedLoop] at h
    injection h with h2
    rw [show acc.1 = st2 from congrArg Prod.fst h2] 
    exact Or.inl hr2
  | cons c rest ih =>
    intro acc st2 a b h r2 hr2
    rcases hs : embedStep embed now acc c with e | acc2
    · rw [show embedLoop embed now acc (c :: rest) = Except.error e from by
        simp only [embedLoop]
        rw [hs]] at h
      exact absurd h (by simp)
    · rw [show embedLoop embed now acc (c :: rest) = embedLoop embed now acc2 rest from by
        simp only [embedLoop]
        rw [hs]] at h
      rcases ih acc2 st2 a b h r2 hr2 with hacc | hrest
      · unfold embedStep at hs
        rcases hc : embed (format_doc_for_embedding c.text (some c.title)) with e2 | r
        · rw [hc] at hs
          simp only at hs
          injection hs with hs2
          rw [show acc2.1 = acc.1 from by rw [← hs2]] at hacc
          exact Or.inl hacc
        · rw [hc] at hs
          simp only at hs
          rcases hi : acc.1.insert_embedding c.hash c.seq c.pos r.embedding r.model now
            with e3 | st3
          · rw [hi] at hs
            exact absurd hs (by simp)
          · rw [hi] at hs
            injection hs with hs2
            obtain ⟨hrows, _⟩ := insert_embedding_ok acc.1 c.hash c.seq c.pos r.embedding
              r.model now st3 hi
            rw [show acc2.1 = st3 from by rw [← hs2]] at hacc
            rw [hrows] at hacc
            rcases List.mem_append.mp hacc with hacc | hacc
            · exact Or.inl hacc
            · right
              rw [List.mem_singleton.mp hacc]
              simp
      · right
        simp [hrest]

theorem filter_length_partition {α : Type} (p : α → Bool) :
    ∀ l : List α, (l.filter p).length + (l.filter (fun x => !(p x))).length = l.length := by
  intro l
  induction l with
  | nil => rfl
  | cons x rest ih =>
    rcases h : p x with _ | _ <;> simp [List.filter_cons, h] <;> omega

/-- Claim C4 counterexample: an embedding error on the very first chunk of a
batch of two chunks aborts the whole batch with an error — the remaining
chunk is not processed and no per-item failure count is reported — refuting
that an error on any single chunk aborts only that chunk. -/
theorem C4_counterexample :
    embedBatch (fun _ => Except.error "model failure") ⟨none, []⟩
        [⟨"h", "T", "a", 0, 0, 1, 1, "p"⟩, ⟨"h", "T", "b", 1, 4, 1, 1, "p"⟩] "t" =
      Except.error "model failure" := rfl

/-- Successful first-chunk embedding and insert reduce the batch to the
chunk loop over the remaining chunks (`main.rs` lines 1138-1166). -/
theorem embedBatch_cons_ok (embed : String → Except String EmbeddingResult)
    (st : VecStore) (first : ChunkItem) (rest : List ChunkItem) (now : String)
    (fr : EmbeddingResult) (st2 : VecStore)
    (hfr : embed (format_doc_for_embedding first.text (some first.title)) = Except.ok fr)
    (hins : (st.ensure_vector_table fr.embedding.length).insert_embedding
        first.hash first.seq first.pos fr.embedding fr.model now = Except.ok st2) :
    embedBatch embed st (first :: rest) now = embedLoop embed now (st2, 1, 0) rest := by
  simp only [embedBatch]
  rw [hfr]
  simp only
  rw [hins]

/-- Claim C4 (amended): during batch embedding, an embedding error on any
chunk after the first aborts only that chunk — it is counted as a per-item
failure, every remaining chunk is still processed (the success and failure
counts partition the remaining chunks), and the batch completes reporting the
failure count — provided every successfully embedded vector matches the
table's fixed dimensionality; an error on the first chunk, whose embedding
also fixes that dimensionality, aborts the whole batch, as does a store
insert error (a vector of mismatched dimension) on any later chunk. -/
theorem C4_batch_embedding :
    ∀ (embed : String → Except String EmbeddingResult) (st : VecStore)
      (first : ChunkItem) (rest : List ChunkItem) (now : String),
      (∀ fr : EmbeddingResult,
        embed (format_doc_for_embedding first.text (some first.title)) = Except.ok fr →
        (st.dims = none ∨ st.dims = some fr.embedding.length) →
        (∀ c ∈ rest, ∀ r : EmbeddingResult,
          embed (format_doc_for_embedding c.text (some c.title)) = Except.ok r →
          r.embedding.length = fr.embedding.length) →
        ∃ st2 : VecStore,
          embedBatch embed st (first :: rest) now = Except.ok (st2,
            1 + (rest.filter (fun c =>
              (embed (format_doc_for_embedding c.text (some c.title))).isOk)).length,
            (rest.filter (fun c =>
              !(embed (format_doc_for_embedding c.text (some c.title))).isOk)).length)) ∧
      ((rest.filter (fun c =>
          (embed (format_doc_for_embedding c.text (some c.title))).isOk)).length +
        (rest.filter (fun c =>
          !(embed (format_doc_for_embedding c.text (some c.title))).isOk)).length
          = rest.length) ∧
      (∀ e, embed (format_doc_for_embedding first.text (some first.title)) = Except.error e →
        embedBatch embed st (first :: rest) now = Except.error e) ∧
      (∀ (fr r : EmbeddingResult) (pre post : List ChunkItem) (bad : ChunkItem),
        embed (format_doc_for_embedding first.text (some first.title)) = Except.ok fr →
        (st.dims = none ∨ st.dims = some fr.embedding.length) →
        rest = pre ++ bad :: post →
        (∀ c ∈ pre, ∀ r2 : EmbeddingResult,
          embed (format_doc_for_embedding c.text (some c.title)) = Except.ok r2 →
          r2.embedding.length = fr.embedding.length) →
        embed (format_doc_for_embedding bad.text (some bad.title)) = Except.ok r →
        r.embedding.length ≠ fr.embedding.length →
        embedBatch embed st (first :: rest) now = Except.error "dimension mismatch") := by
  intro embed st first rest now
  refine ⟨?_, filter_length_partition _ rest, ?_, ?_⟩
  · intro fr hfr hd0 hall
    have hd1 := ensure_vector_table_dims st fr.embedding.length hd0
    have hins := insert_embedding_dims_ok (st.ensure_vector_table fr.embedding.length)
      first.hash first.seq first.pos fr.embedding fr.model now fr.embedding.length hd1 rfl
    obtain ⟨st2f, hd2, hloop⟩ := embedLoop_complete embed now fr.embedding.length rest
      ({ st.ensure_vector_table fr.embedding.length with
          rows := (st.ensure_vector_table fr.embedding.length).rows ++
            [(first.hash, first.seq, first.pos, fr.embedding, fr.model, now)] }, 1, 0)
      hd1 hall
    refine ⟨st2f, ?_⟩
    rw [embedBatch_cons_ok embed st first rest now fr _ hfr hins, hloop]
    simp only [Nat.zero_add]
  · intro e he
    simp only [embedBatch]
    rw [he]
  · intro fr r pre post bad hfr hd0 hre hallpre hbadok hbadlen
    have hd1 := ensure_vector_table_dims st fr.embedding.length hd0
    have hins := insert_embedding_dims_ok (st.ensure_vector_table fr.embedding.length)
      first.hash first.seq first.pos fr.embedding fr.model now fr.embedding.length hd1 rfl
    subst hre
    rw [embedBatch_cons_ok embed st first (pre ++ bad :: post) now fr _ hfr hins,
      embedLoop_append embed now pre (bad :: post) _]
    obtain ⟨stM, hdM, hloopPre⟩ := embedLoop_complete embed now fr.embedding.length pre
      ({ st.ensure_vector_table fr.embedding.length with
          rows := (st.ensure_vector_table fr.embedding.length).rows ++
            [(first.hash, first.seq, first.pos, fr.embedding, fr.model, now)] }, 1, 0)
      hd1 hallpre
    rw [hloopPre]
    simp only
    have hinsbad := insert_embedding_mismatch stM bad.hash bad.seq bad.pos r.embedding
      r.model now fr.embedding.length hdM hbadlen
    have hstep : ∀ n e2 : Nat, embedStep embed now (stM, n, e2) bad =
        Except.error "dimension mismatch" := by
      intro n e2
      simp only [embedStep, hbadok, hinsbad]
    simp only [embedLoop]
    rw [hstep]

/-- Claim C4 witness: a concrete three-chunk batch of one-dimensional
vectors whose second chunk fails to embed — the batch completes with 2
chunks embedded and 1 per-item failure. -/
theorem C4_batch_embedding_witness :
    ∃ st2 : VecStore,
      embedBatch (fun s => if s = format_doc_for_embedding "b" (some "T")
          then Except.error "x" else Except.ok ⟨[(1 : ℚ)], "m"⟩) ⟨none, []⟩
        [⟨"h", "T", "a", 0, 0, 1, 1, "p"⟩, ⟨"h", "T", "b", 1, 4, 1, 1, "p"⟩,
          ⟨"h", "T", "c", 2, 8, 1, 1, "p"⟩] "t" = Except.ok (st2, 2, 1) := by
  obtain ⟨st2, hst⟩ := (C4_batch_embedding
    (fun s => if s = format_doc_for_embedding "b" (some "T")
      then Except.error "x" else Except.ok ⟨[(1 : ℚ)], "m"⟩) ⟨none, []⟩
    ⟨"h", "T", "a", 0, 0, 1, 1, "p"⟩
    [⟨"h", "T", "b", 1, 4, 1, 1, "p"⟩, ⟨"h", "T", "c", 2, 8, 1, 1, "p"⟩] "t").1
    ⟨[(1 : ℚ)], "m"⟩ rfl (Or.inl rfl)
    (by
      intro c hc r hr
      simp only [List.mem_cons, List.not_mem_nil, or_false] at hc
      rcases hc with rfl | rfl
      · have hcond : format_doc_for_embedding
            (⟨"h", "T", "b", 1, 4, 1, 1, "p"⟩ : ChunkItem).text
            (some (⟨"h", "T", "b", 1, 4, 1, 1, "p"⟩ : ChunkItem).title) =
            format_doc_for_embedding "b" (some "T") := rfl
        rw [if_pos hcond] at hr
        exact absurd hr (by simp)
      · have hcond : ¬(format_doc_for_embedding
            (⟨"h", "T", "c", 2, 8, 1, 1, "p"⟩ : ChunkItem).text
            (some (⟨"h", "T", "c", 2, 8, 1, 1, "p"⟩ : ChunkItem).title) =
            format_doc_for_embedding "b" (some "T")) := by decide
        rw [if_neg hcond] at hr
        injection hr with h2
        rw [← h2])
  refine ⟨st2, ?_⟩
  rw [hst]
  congr 1

theorem ensure_vector_table_rows (st : VecStore) (d : Nat) :
    (st.ensure_vector_table d).rows = st.rows := by
  cases hd : st.dims <;> simp [VecStore.ensure_vector_table, hd]

theorem embedBatch_rows (embed : String → Except String EmbeddingResult) (st : VecStore)
    (chunks : List ChunkItem) (now : String) (st2 : VecStore) (a b : Nat)
    (h : embedBatch embed st chunks now = Except.ok (st2, a, b)) :
    ∀ r ∈ st2.rows, r ∈ st.rows ∨ r.1 ∈ chunks.map (fun c => c.hash) := by
  cases chunks with
  | nil =>
    simp only [embedBatch, Except.ok.injEq, Prod.mk.injEq] at h
    intro r hr
    rw [← h.1] at hr
    exact Or.inl hr
  | cons first rest =>
    rcases hf : embed (format_doc_for_embedding first.text (some first.title)) with e | fr
    · simp only [embedBatch] at h
      rw [hf] at h
      exact absurd h (by simp)
    · simp only [embedBatch] at h
      rw [hf] at h
      simp only at h
      rcases hi : (st.ensure_vector_table fr.embedding.length).insert_embedding
          first.hash first.seq first.pos fr.embedding fr.model now with e2 | stI
      · rw [hi] at h
        exact absurd h (by simp)
      · rw [hi] at h
        intro r hr
        rcases embedLoop_rows embed now rest (stI, 1, 0) st2 a b h r hr with hacc | hrest
        · obtain ⟨hrows, _⟩ := insert_embedding_ok _ _ _ _ _ _ _ _ hi
          rw [hrows, ensure_vector_table_rows] at hacc
          rcases List.mem_append.mp hacc with h1 | h1
          · exact Or.inl h1
          · right
            rw [List.mem_singleton.mp h1]
            simp
        · right
          simp [hrest]

/-- Claim C9: a pending document with empty content produces no chunks and no
embedding rows carrying its hash are inserted; and when every pending
document is empty the embed operation reports that there is nothing to embed
and succeeds without touching the vector table.  The hypothesis ties each
pending row's hash to its content, as produced by the store query. -/
theorem C9_empty_pending_documents :
    ∀ (chunker : String → Except Unit (List TokenChunk))
      (embed : String → Except String EmbeddingResult)
      (st : VecStore) (pending : List PendingDoc) (now : String),
      (∀ p ∈ pending, p.hash = Store.hash_content p.content) →
      ((∀ d ∈ pending, d.content = "" →
        (∀ ch ∈ buildChunks chunker pending, ch.hash ≠ d.hash) ∧
        (∀ st' o, handle_embed chunker embed st pending now = Except.ok (st', o) →
          ∀ r ∈ st'.rows, r.1 = d.hash → r ∈ st.rows)) ∧
      (pending ≠ [] → (∀ d ∈ pending, d.content = "") →
        handle_embed chunker embed st pending now =
          Except.ok (st, EmbedOutcome.nothingToEmbed))) := by
  intro chunker embed st pending now hcons
  have hchunkhash : ∀ d ∈ pending, d.content = "" →
      ∀ ch ∈ buildChunks chunker pending, ch.hash ≠ d.hash := by
    intro d hd hdc ch hch heq
    obtain ⟨p, hp, hpne, hchhash⟩ := buildChunks_hash chunker pending ch hch
    rw [hchhash, hcons p hp, hcons d hd] at heq
    exact hpne (by rw [hash_content_injective _ _ heq, hdc])
  constructor
  · intro d hd hdc
    refine ⟨hchunkhash d hd hdc, ?_⟩
    intro st' o h r hr hrhash
    by_cases hpe : pending = []
    · rw [hpe] at hd
      exact absurd hd (List.not_mem_nil d)
    · simp only [handle_embed, if_neg hpe] at h
      by_cases hbc : buildChunks chunker pending = []
      · rw [if_pos hbc] at h
        simp only [Except.ok.injEq, Prod.mk.injEq] at h
        rw [← h.1] at hr
        exact hr
      · rw [if_neg hbc] at h
        rcases heb : embedBatch embed st (buildChunks chunker pending) now with e | ⟨st'', a, b⟩
        · rw [heb] at h
          exact absurd h (by simp)
        · rw [heb] at h
          injection h with h2
          have hst : st' = st'' := by
            have h3 := congrArg Prod.fst h2
            simpa using h3.symm
          rcases embedBatch_rows embed st (buildChunks chunker pending) now st'' a b heb r
            (hst ▸ hr) with hin | hhash
          · exact hin
          · rw [List.mem_map] at hhash
            obtain ⟨ch, hch, hchh⟩ := hhash
            exact absurd hrhash (by rw [← hchh]; exact hchunkhash d hd hdc ch hch)
  · intro hne hall
    have hb : buildChunks chunker pending = [] := by
      rw [buildChunks_eq_flatten, List.flatten_eq_nil_iff]
      intro x hx
      rw [List.mem_map] at hx
      obtain ⟨p, hp, rfl⟩ := hx
      simp [docChunks, hall p hp]
    simp [handle_embed, hne, hb]

/-- Claim C9 witness: a single empty pending document — the embed operation
reports nothing to embed and leaves the vector table untouched. -/
theorem C9_empty_pending_documents_witness :
    handle_embed (fun _ => Except.ok []) (fun _ => Except.ok ⟨[], "m"⟩)
        ⟨none, []⟩ [⟨Store.hash_content "", "a.md", ""⟩] "t" =
      Except.ok (⟨none, []⟩, EmbedOutcome.nothingToEmbed) :=
  (C9_empty_pending_documents (fun _ => Except.ok []) (fun _ => Except.ok ⟨[], "m"⟩)
    ⟨none, []⟩ [⟨Store.hash_content "", "a.md", ""⟩] "t"
    (by decide)).2 (by decide) (by decide)

/-- Claim C8 witness: on two concrete fused candidates, a load failure keeps
the fused order, and a successful rerank returning only the second file keeps
exactly that candidate. -/
theorem C8_rerank_integration_witness :
    applyRerank false true (Except.error ()) (Except.ok ["b"])
        [⟨"a", "a", "A", "", 0⟩, ⟨"b", "b", "B", "", 0⟩] =
      [⟨"a", "a", "A", "", 0⟩, ⟨"b", "b", "B", "", 0⟩] ∧
    applyRerank false true (Except.ok ()) (Except.ok ["b"])
        [⟨"a", "a", "A", "", 0⟩, ⟨"b", "b", "B", "", 0⟩] =
      ["b"].filterMap (fun f =>
        [(⟨"a", "a", "A", "", 0⟩ : RrfR), ⟨"b", "b", "B", "", 0⟩].find?
          (fun r => r.file == f)) :=
  ⟨(C8_rerank_integration false true (Except.error ()) (Except.ok ["b"])
      [⟨"a", "a", "A", "", 0⟩, ⟨"b", "b", "B", "", 0⟩]).2.1 () rfl,
    ((C8_rerank_integration false true (Except.ok ()) (Except.ok ["b"])
      [⟨"a", "a", "A", "", 0⟩, ⟨"b", "b", "B", "", 0⟩]).2.2.2 ["b"] rfl rfl rfl rfl).1⟩

/-- Claim C3 counterexample: with k=60, a document at rank 62 in both lists
(equal or worse than rank 1) scores 1/122 + 1/122 = 1/61, exactly the score
of a document at rank 1 in a single list — not strictly higher, refuting the
unrestricted form of the claim. -/
theorem C3_counterexample :
    ("d" : String) ∈ ("e" :: (List.replicate 60 "x" ++ ["d"])) ∧
      ("d" : String) ∈ (List.replicate 61 "y" ++ ["d"]) ∧
      ("e" : String) ∈ ("e" :: (List.replicate 60 "x" ++ ["d"])) ∧
      ("e" : String) ∉ (List.replicate 61 "y" ++ ["d"]) ∧
      (("e" :: (List.replicate 60 "x" ++ ["d"])).indexOf "e" + 1 ≤
        ("e" :: (List.replicate 60 "x" ++ ["d"])).indexOf "d" + 1) ∧
      (("e" :: (List.replicate 60 "x" ++ ["d"])).indexOf "e" + 1 ≤
        (List.replicate 61 "y" ++ ["d"]).indexOf "d" + 1) ∧
      ¬ (hybrid_search_rrf_score 60 ("e" :: (List.replicate 60 "x" ++ ["d"]))
          (List.replicate 61 "y" ++ ["d"]) "d" >
        hybrid_search_rrf_score 60 ("e" :: (List.replicate 60 "x" ++ ["d"]))
          (List.replicate 61 "y" ++ ["d"]) "e") := by
  have hd1 : ("d" : String) ∈ ("e" :: (List.replicate 60 "x" ++ ["d"])) := by decide
  have hd2 : ("d" : String) ∈ (List.replicate 61 "y" ++ ["d"]) := by decide
  have he1 : ("e" : String) ∈ ("e" :: (List.replicate 60 "x" ++ ["d"])) := by decide
  have hne : ("e" : String) ∉ (List.replicate 61 "y" ++ ["d"]) := by decide
  have hi1 : ("e" :: (List.replicate 60 "x" ++ ["d"])).indexOf "d" = 61 := by decide
  have hi2 : (List.replicate 61 "y" ++ ["d"]).indexOf "d" = 61 := by decide
  have hi3 : ("e" :: (List.replicate 60 "x" ++ ["d"])).indexOf "e" = 0 := by decide
  refine ⟨hd1, hd2, he1, hne, by decide, by rw [hi2, hi3]; omega, ?_⟩
  simp only [hybrid_search_rrf_score, rrfContribution, if_pos hd1, if_pos hd2,
    if_pos he1, if_neg hne, hi1, hi2, hi3]
  norm_num

/-- Claim C3 (amended): RRF with k=60 scores a document present in both
lists as the sum 1/(60+r₁) + 1/(60+r₂) of its per-appearance contributions
at 1-indexed ranks r₁, r₂; and whenever those ranks are equal to or worse
than the rank of a document present in only one of the lists — and are at
most 61 — the two-list document receives a strictly higher fused score.
(The bound is necessary: at rank 62 in both lists the scores tie, see the
counterexample.) -/
theorem C3_rrf_fusion (l1 l2 le : List String) (d e : String)
    (hd1 : d ∈ l1) (hd2 : d ∈ l2)
    (hle : (le = l1 ∧ e ∉ l2) ∨ (le = l2 ∧ e ∉ l1))
    (he : e ∈ le)
    (hs1 : le.indexOf e + 1 ≤ l1.indexOf d + 1)
    (hs2 : le.indexOf e + 1 ≤ l2.indexOf d + 1)
    (hb1 : l1.indexOf d + 1 ≤ 61) (hb2 : l2.indexOf d + 1 ≤ 61) :
    hybrid_search_rrf_score 60 l1 l2 d =
        1 / (60 + ((l1.indexOf d : ℚ) + 1)) + 1 / (60 + ((l2.indexOf d : ℚ) + 1)) ∧
      hybrid_search_rrf_score 60 l1 l2 d > hybrid_search_rrf_score 60 l1 l2 e := by
  have hdeq : hybrid_search_rrf_score 60 l1 l2 d =
      1 / (60 + ((l1.indexOf d : ℚ) + 1)) + 1 / (60 + ((l2.indexOf d : ℚ) + 1)) := by
    simp only [hybrid_search_rrf_score, rrfContribution, if_pos hd1, if_pos hd2]
    norm_num
  refine ⟨hdeq, ?_⟩
  have ha : (l1.indexOf d : ℚ) ≤ 60 := by
    exact_mod_cast (by omega : l1.indexOf d ≤ 60)
  have hb : (l2.indexOf d : ℚ) ≤ 60 := by
    exact_mod_cast (by omega : l2.indexOf d ≤ 60)
  have hpos1 : (0 : ℚ) < 60 + ((l1.indexOf d : ℚ) + 1) := by positivity
  have hpos2 : (0 : ℚ) < 60 + ((l2.indexOf d : ℚ) + 1) := by positivity
  have h1 : (1 : ℚ) / 121 ≤ 1 / (60 + ((l1.indexOf d : ℚ) + 1)) := by
    apply one_div_le_one_div_of_le hpos1
    linarith
  have h2 : (1 : ℚ) / 121 ≤ 1 / (60 + ((l2.indexOf d : ℚ) + 1)) := by
    apply one_div_le_one_div_of_le hpos2
    linarith
  have hepos : (0 : ℚ) ≤ (le.indexOf e : ℚ) := by positivity
  have hescore : hybrid_search_rrf_score 60 l1 l2 e =
      1 / (60 + ((le.indexOf e : ℚ) + 1)) := by
    rcases hle with ⟨rfl, hnot⟩ | ⟨rfl, hnot⟩
    · simp only [hybrid_search_rrf_score, rrfContribution, if_pos he, if_neg hnot]
      norm_num
    · simp only [hybrid_search_rrf_score, rrfContribution, if_pos he, if_neg hnot]
      norm_num
  have heb : hybrid_search_rrf_score 60 l1 l2 e ≤ 1 / 61 := by
    rw [hescore]
    apply one_div_le_one_div_of_le (by norm_num)
    linarith
  rw [hdeq]
  have hfinal : (1 : ℚ) / 121 + 1 / 121 > 1 / 61 := by norm_num
  linarith

/-- Claim C3 witness: rank 2 in both lists (score 2/62 = 1/31) strictly beats
rank 1 in a single list (score 1/61), matching the spec's worked example. -/
theorem C3_rrf_fusion_witness :
    hybrid_search_rrf_score 60 ["x", "z"] ["y", "z"] "z" =
        1 / (60 + ((1 : ℚ) + 1)) + 1 / (60 + ((1 : ℚ) + 1)) ∧
      hybrid_search_rrf_score 60 ["x", "z"] ["y", "z"] "z" >
        hybrid_search_rrf_score 60 ["x", "z"] ["y", "z"] "y" := by
  have h := C3_rrf_fusion ["x", "z"] ["y", "z"] ["y", "z"] "z" "y"
    (by decide) (by decide) (Or.inr ⟨rfl, by decide⟩) (by decide)
    (by decide) (by decide) (by decide) (by decide)
  have hi1 : (["x", "z"] : List String).indexOf "z" = 1 := by decide
  have hi2 : (["y", "z"] : List String).indexOf "z" = 1 := by decide
  rw [hi1, hi2] at h
  exact_mod_cast h

/-! ## Sync-engine lemmas -/

theorem matchesActive_iff (d : Doc) (c p : String) :
    d.matchesActive c p = true ↔ d.collection = c ∧ d.path = p ∧ d.active = true := by
  simp [Doc.matchesActive, Bool.and_eq_true, beq_iff_eq, and_assoc]

theorem matchesKey_iff (d : Doc) (c p : String) :
    d.matchesKey c p = true ↔ d.collection = c ∧ d.path = p := by
  simp [Doc.matchesKey, Bool.and_eq_true, beq_iff_eq]

theorem matchesActive_imp_matchesKey (d : Doc) (c p : String)
    (h : d.matchesActive c p = true) : d.matchesKey c p = true := by
  rw [matchesActive_iff] at h
  rw [matchesKey_iff]
  exact ⟨h.1, h.2.1⟩

theorem find?_map_invariant {α : Type} (g : α → α) (pred : α → Bool)
    (h1 : ∀ d, pred (g d) = pred d) (h2 : ∀ d, pred d = true → g d = d) :
    ∀ l : List α, (l.map g).find? pred = l.find? pred := by
  intro l
  induction l with
  | nil => rfl
  | cons x rest ih =>
    rcases hx : pred x with _ | _
    · rw [List.map_cons, List.find?_cons_of_neg _ (by simp [h1 x, hx]),
        List.find?_cons_of_neg _ (by simp [hx])]
      exact ih
    · rw [List.map_cons, List.find?_cons_of_pos _ (by simp [h1 x, hx]),
        List.find?_cons_of_pos _ hx, h2 x hx]

theorem find?_append_singleton {α : Type} (pred : α → Bool) (x : α)
    (hx : pred x = false) :
    ∀ l : List α, (l ++ [x]).find? pred = l.find? pred := by
  intro l
  induction l with
  | nil =>
    show ([x].find? pred) = none
    rw [List.find?_cons_of_neg _ (by simp [hx])]
    rfl
  | cons y rest ih =>
    rcases hy : pred y with _ | _
    · rw [List.cons_append, List.find?_cons_of_neg _ (by simp [hy]),
        List.find?_cons_of_neg _ (by simp [hy])]
      exact ih
    · rw [List.cons_append, List.find?_cons_of_pos _ hy, List.find?_cons_of_pos _ hy]

theorem insert_content_docs (st : Catalog) (h b n : String) :
    (st.insert_content h b n).docs = st.docs := by
  unfold Catalog.insert_content
  split <;> rfl

theorem find_active_insert_content (st : Catalog) (h b n : String) (c p : String) :
    (st.insert_content h b n).find_active_document c p = st.find_active_document c p := by
  unfold Catalog.find_active_document
  rw [insert_content_docs]

theorem find_active_docid_eq (st : Catalog) (c p : String) (d0 : Docid) (h0 t0 : String)
    (h : st.find_active_document c p = some (d0, h0, t0)) : d0 = (c, p) := by
  unfold Catalog.find_active_document at h
  rcases hf : st.docs.find? (fun d => d.matchesActive c p) with _ | r
  · rw [hf] at h
    simp at h
  · rw [hf] at h
    have hp := List.find?_some hf
    rw [matchesActive_iff] at hp
    simp only [Option.map] at h
    injection h with h1
    have h2 := congrArg Prod.fst h1
    simp only at h2
    rw [← h2, hp.1, hp.2.1]

theorem upsert_map_find (c p t h mo : String) :
    ∀ l : List Doc, l.any (fun d => d.matchesKey c p) = true →
      Option.map (fun d => ((d.collection, d.path), d.hash, d.title))
        ((l.map (fun d => if d.matchesKey c p then
            { d with title := t, hash := h, active := true, modified_at := mo } else d)).find?
          (fun d => d.matchesActive c p)) = some ((c, p), h, t) := by
  intro l
  induction l with
  | nil => intro hex; simp at hex
  | cons x rest ih =>
    intro hex
    rcases hk : x.matchesKey c p with _ | _
    · rw [List.any_cons, hk, Bool.false_or] at hex
      rw [List.map_cons, if_neg (by simp [hk]), List.find?_cons_of_neg _ (by
        intro hact
        exact absurd (matchesActive_imp_matchesKey _ _ _ hact) (by simp [hk]))]
      exact ih hex
    · have hkk := (matchesKey_iff x c p).mp hk
      rw [List.map_cons, if_pos hk, List.find?_cons_of_pos _ (by
        rw [matchesActive_iff]
        exact ⟨hkk.1, hkk.2, rfl⟩)]
      simp [hkk.1, hkk.2]

theorem update_map_find (c p t h now : String) :
    ∀ l : List Doc, (l.find? (fun d => d.matchesActive c p)).isSome = true →
      Option.map (fun d => ((d.collection, d.path), d.hash, d.title))
        ((l.map (fun d => if (d.collection, d.path) = ((c, p) : Docid) then
            { d with title := t, hash := h, modified_at := now } else d)).find?
          (fun d => d.matchesActive c p)) = some ((c, p), h, t) := by
  intro l
  induction l with
  | nil => intro hex; simp at hex
  | cons x rest ih =>
    intro hex
    rcases hx : x.matchesActive c p with _ | _
    · rw [List.find?_cons_of_neg _ (by rw [Bool.not_eq_true]; exact hx)] at hex
      have hgx : (if (x.collection, x.path) = ((c, p) : Docid) then
          { x with title := t, hash := h, modified_at := now } else x).matchesActive c p
            = false := by
        split
        · rw [Doc.matchesActive] at hx ⊢
          simpa using hx
        · exact hx
      rw [List.map_cons, List.find?_cons_of_neg _ (by rw [Bool.not_eq_true]; exact hgx)]
      exact ih hex
    · have hxx := (matchesActive_iff x c p).mp hx
      have hkey : (x.collection, x.path) = ((c, p) : Docid) := by
        rw [hxx.1, hxx.2.1]
      rw [List.map_cons, if_pos hkey, List.find?_cons_of_pos _ (by
        rw [matchesActive_iff]
        exact ⟨hxx.1, hxx.2.1, hxx.2.2⟩)]
      simp [hxx.1, hxx.2.1]

theorem title_map_find (c p t now : String) :
    ∀ l : List Doc, ∀ r : Doc, l.find? (fun d => d.matchesActive c p) = some r →
      Option.map (fun d => ((d.collection, d.path), d.hash, d.title))
        ((l.map (fun d => if (d.collection, d.path) = ((c, p) : Docid) then
            { d with title := t, modified_at := now } else d)).find?
          (fun d => d.matchesActive c p)) = some ((c, p), r.hash, t) := by
  intro l
  induction l with
  | nil => intro r hr; simp at hr
  | cons x rest ih =>
    intro r hr
    rcases hx : x.matchesActive c p with _ | _
    · rw [List.find?_cons_of_neg _ (by rw [Bool.not_eq_true]; exact hx)] at hr
      have hgx : (if (x.collection, x.path) = ((c, p) : Docid) then
          { x with title := t, modified_at := now } else x).matchesActive c p = false := by
        split
        · rw [Doc.matchesActive] at hx ⊢
          simpa using hx
        · exact hx
      rw [List.map_cons, List.find?_cons_of_neg _ (by rw [Bool.not_eq_true]; exact hgx)]
      exact ih r hr
    · rw [show List.find? (fun d => d.matchesActive c p) (x :: rest) = some x from
        List.find?_cons_of_pos _ hx] at hr
      injection hr with hr
      subst hr
      have hxx := (matchesActive_iff x c p).mp hx
      have hkey : (x.collection, x.path) = ((c, p) : Docid) := by
        rw [hxx.1, hxx.2.1]
      rw [List.map_cons, if_pos hkey, List.find?_cons_of_pos _ (by
        rw [matchesActive_iff]
        exact ⟨hxx.1, hxx.2.1, hxx.2.2⟩)]
      simp [hxx.1, hxx.2.1]

theorem find_active_insert_document (st : Catalog) (c p t h cr mo : String) :
    (st.insert_document c p t h cr mo).find_active_document c p = some ((c, p), h, t) := by
  unfold Catalog.insert_document Catalog.find_active_document
  by_cases hex : st.docs.any (fun d => d.matchesKey c p)
  · rw [if_pos hex]
    exact upsert_map_find c p t h mo st.docs hex
  · rw [if_neg hex]
    simp only
    have hnone : st.docs.find? (fun d => d.matchesActive c p) = none := by
      rw [List.find?_eq_none]
      intro d hd hact
      exact hex (List.any_eq_true.mpr ⟨d, hd, matchesActive_imp_matchesKey _ _ _ hact⟩)
    have hsing : ∀ nd : Doc, nd.matchesActive c p = true →
        List.find? (fun d => d.matchesActive c p) [nd] = some nd := fun nd hnd =>
      List.find?_cons_of_pos _ hnd
    rw [List.find?_append, hnone, Option.none_or,
      hsing _ (by rw [matchesActive_iff]; exact ⟨rfl, rfl, rfl⟩)]
    rfl

theorem find_active_update_document (st : Catalog) (c p t h now : String)
    (hex : (st.find_active_document c p).isSome = true) :
    (st.update_document (c, p) t h now).find_active_document c p = some ((c, p), h, t) := by
  unfold Catalog.find_active_document at hex ⊢
  unfold Catalog.update_document
  simp only
  have hex2 : (st.docs.find? (fun d => d.matchesActive c p)).isSome = true := by
    rcases hf : st.docs.find? (fun d => d.matchesActive c p) with _ | r
    · rw [hf] at hex
      simp at hex
    · rw [hf]
      rfl
  exact update_map_find c p t h now st.docs hex2

theorem find_active_update_document_title (st : Catalog) (c p t now h0 t0 : String)
    (d0 : Docid) (hfind : st.find_active_document c p = some (d0, h0, t0)) :
    (st.update_document_title (c, p) t now).find_active_document c p =
      some ((c, p), h0, t) := by
  unfold Catalog.find_active_document at hfind ⊢
  unfold Catalog.update_document_title
  simp only
  rcases hf : st.docs.find? (fun d => d.matchesActive c p) with _ | r
  · rw [hf] at hfind
    simp at hfind
  · rw [hf] at hfind
    simp only [Option.map] at hfind
    injection hfind with hfind
    have hh0 : r.hash = h0 := by
      have := congrArg (fun q => q.2.1) hfind
      simpa using this
    rw [← hh0]
    exact title_map_find c p t now st.docs r hf

theorem find_active_insert_document_other (st : Catalog) (cq qq t h cr mo c p : String)
    (hne : ¬(cq = c ∧ qq = p)) :
    (st.insert_document cq qq t h cr mo).find_active_document c p =
      st.find_active_document c p := by
  unfold Catalog.insert_document Catalog.find_active_document
  have hkey_ne : ∀ d : Doc, d.matchesActive c p = true → d.matchesKey cq qq = false := by
    intro d hact
    rw [matchesActive_iff] at hact
    rcases hk : d.matchesKey cq qq with _ | _
    · rfl
    · rw [matchesKey_iff] at hk
      exact absurd ⟨hk.1 ▸ hact.1.symm ▸ rfl, hk.2 ▸ hact.2.1.symm ▸ rfl⟩ hne
  by_cases hex : st.docs.any (fun d => d.matchesKey cq qq)
  · rw [if_pos hex]
    simp only
    rw [find?_map_invariant _ _ ?h1 ?h2]
    case h1 =>
      intro d
      by_cases hk : d.matchesKey cq qq = true
      · have hkk := (matchesKey_iff d cq qq).mp hk
        have hd1 : d.matchesActive c p = false := by
          rcases hh : d.matchesActive c p with _ | _
          · rfl
          · rw [matchesActive_iff] at hh
            exact absurd ⟨hkk.1.symm.trans hh.1, hkk.2.symm.trans hh.2.1⟩ hne
        have hd2 : Doc.matchesActive
            { d with title := t, hash := h, active := true, modified_at := mo } c p = false := by
          rcases hh : Doc.matchesActive
              { d with title := t, hash := h, active := true, modified_at := mo } c p with _ | _
          · rfl
          · rw [matchesActive_iff] at hh
            simp only at hh
            exact absurd ⟨hkk.1.symm.trans hh.1, hkk.2.symm.trans hh.2.1⟩ hne
        rw [if_pos hk, hd1, hd2]
      · rw [if_neg hk]
    case h2 =>
      intro d hact
      rw [if_neg (by rw [Bool.not_eq_true]; exact hkey_ne d hact)]
  · rw [if_neg hex]
    simp only
    rw [find?_append_singleton _ _ ?hx]
    case hx =>
      rcases hact : Doc.matchesActive
          { collection := cq, path := qq, title := t, hash := h, active := true,
            created_at := cr, modified_at := mo } c p with _ | _
      · rfl
      · rw [matchesActive_iff] at hact
        simp only at hact
        exact absurd ⟨hact.1, hact.2.1⟩ hne

theorem find_active_update_document_other (st : Catalog) (docid : Docid)
    (t h now c p : String) (hne : docid ≠ (c, p)) :
    (st.update_document docid t h now).find_active_document c p =
      st.find_active_document c p := by
  unfold Catalog.update_document Catalog.find_active_document
  simp only
  rw [find?_map_invariant _ _ ?h1 ?h2]
  case h1 =>
    intro d
    by_cases hk : (d.collection, d.path) = docid
    · rw [if_pos hk]
      rw [Doc.matchesActive, Doc.matchesActive]
    · rw [if_neg hk]
  case h2 =>
    intro d hact
    rw [matchesActive_iff] at hact
    rw [if_neg (by rw [hact.1, hact.2.1]; exact fun hh => hne hh.symm)]

theorem find_active_update_title_other (st : Catalog) (docid : Docid)
    (t now c p : String) (hne : docid ≠ (c, p)) :
    (st.update_document_title docid t now).find_active_document c p =
      st.find_active_document c p := by
  unfold Catalog.update_document_title Catalog.find_active_document
  simp only
  rw [find?_map_invariant _ _ ?h1 ?h2]
  case h1 =>
    intro d
    by_cases hk : (d.collection, d.path) = docid
    · rw [if_pos hk]
      rw [Doc.matchesActive, Doc.matchesActive]
    · rw [if_neg hk]
  case h2 =>
    intro d hact
    rw [matchesActive_iff] at hact
    rw [if_neg (by rw [hact.1, hact.2.1]; exact fun hh => hne hh.symm)]

theorem find_active_deactivate_other (st : Catalog) (cq qq c p : String)
    (hne : ¬(cq = c ∧ qq = p)) :
    (st.deactivate_document cq qq).find_active_document c p =
      st.find_active_document c p := by
  unfold Catalog.deactivate_document Catalog.find_active_document
  simp only
  rw [find?_map_invariant _ _ ?h1 ?h2]
  case h1 =>
    intro d
    by_cases hk : d.matchesKey cq qq = true
    · have hkk := (matchesKey_iff d cq qq).mp hk
      have hd1 : d.matchesActive c p = false := by
        rcases hh : d.matchesActive c p with _ | _
        · rfl
        · rw [matchesActive_iff] at hh
          exact absurd ⟨hkk.1.symm.trans hh.1, hkk.2.symm.trans hh.2.1⟩ hne
      have hd2 : Doc.matchesActive { d with active := false } c p = false := by
        rcases hh : Doc.matchesActive { d with active := false } c p with _ | _
        · rfl
        · rw [matchesActive_iff] at hh
          simp only at hh
          exact absurd ⟨hkk.1.symm.trans hh.1, hkk.2.symm.trans hh.2.1⟩ hne
      rw [if_pos hk, hd1, hd2]
    · rw [if_neg hk]
  case h2 =>
    intro d hact
    rw [matchesActive_iff] at hact
    rw [if_neg (by
      intro hk
      rw [matchesKey_iff] at hk
      exact hne ⟨hk.1.symm.trans hact.1, hk.2.symm.trans hact.2.1⟩)]

theorem syncStep_skip (coll now : String) (st : Catalog) (rep : SyncReport)
    (seen : List String) (f : MFile) (hc : f.content = none) :
    syncStep coll now (st, rep, seen) f = (st, rep, Store.handelize f.rel_path :: seen) := by
  unfold syncStep
  rw [hc]

theorem syncStep_new (coll now : String) (st : Catalog) (rep : SyncReport)
    (seen : List String) (f : MFile) (content : String) (hc : f.content = some content)
    (hfind : st.find_active_document coll (Store.handelize f.rel_path) = none) :
    syncStep coll now (st, rep, seen) f =
      ((st.insert_content (Store.hash_content content) content now).insert_document coll
          (Store.handelize f.rel_path) (Store.extract_title content)
          (Store.hash_content content) now now,
        { rep with indexed := rep.indexed + 1 },
        Store.handelize f.rel_path :: seen) := by
  unfold syncStep
  rw [hc]
  simp only
  rw [hfind]

theorem syncStep_unchanged (coll now : String) (st : Catalog) (rep : SyncReport)
    (seen : List String) (f : MFile) (content : String) (d0 : Docid) (et : String)
    (hc : f.content = some content)
    (hfind : st.find_active_document coll (Store.handelize f.rel_path) =
      some (d0, Store.hash_content content, et)) :
    syncStep coll now (st, rep, seen) f =
      ((if et ≠ Store.extract_title content then
          st.update_document_title d0 (Store.extract_title content) now
        else st),
        { rep with unchanged := rep.unchanged + 1 },
        Store.handelize f.rel_path :: seen) := by
  unfold syncStep
  rw [hc]
  simp only
  rw [hfind]
  simp

theorem syncStep_updated (coll now : String) (st : Catalog) (rep : SyncReport)
    (seen : List String) (f : MFile) (content : String) (d0 : Docid) (eh et : String)
    (hc : f.content = some content)
    (hfind : st.find_active_document coll (Store.handelize f.rel_path) = some (d0, eh, et))
    (hne : eh ≠ Store.hash_content content) :
    syncStep coll now (st, rep, seen) f =
      ((st.insert_content (Store.hash_content content) content now).update_document d0
          (Store.extract_title content) (Store.hash_content content) now,
        { rep with updated := rep.updated + 1 },
        Store.handelize f.rel_path :: seen) := by
  unfold syncStep
  rw [hc]
  simp only
  rw [hfind]
  simp only [if_neg hne]

theorem syncStep_find_other (coll now : String) (st : Catalog) (rep : SyncReport)
    (seen : List String) (f : MFile) (p : String)
    (hne : Store.handelize f.rel_path ≠ p) :
    (syncStep coll now (st, rep, seen) f).1.find_active_document coll p =
      st.find_active_document coll p := by
  rcases hc : f.content with _ | content
  · rw [syncStep_skip coll now st rep seen f hc]
  · rcases hfind : st.find_active_document coll (Store.handelize f.rel_path)
      with _ | ⟨d0, eh, et⟩
    · rw [syncStep_new coll now st rep seen f content hc hfind]
      simp only
      rw [find_active_insert_document_other _ _ _ _ _ _ _ _ _
        (fun hh => hne hh.2), find_active_insert_content]
    · have hd0 : d0 = (coll, Store.handelize f.rel_path) :=
        find_active_docid_eq st coll (Store.handelize f.rel_path) d0 eh et hfind
      have hdne : d0 ≠ ((coll, p) : Docid) := by
        rw [hd0]
        intro hh
        exact hne (congrArg Prod.snd hh)
      by_cases heq : eh = Store.hash_content content
      · rw [heq] at hfind
        rw [syncStep_unchanged coll now st rep seen f content d0 et hc hfind]
        simp only
        split
        · exact find_active_update_title_other st d0 _ _ _ _ hdne
        · rfl
      · rw [syncStep_updated coll now st rep seen f content d0 eh et hc hfind heq]
        simp only
        rw [find_active_update_document_other _ _ _ _ _ _ _ hdne,
          find_active_insert_content]

theorem syncStep_seen (coll now : String) (st : Catalog) (rep : SyncReport)
    (seen : List String) (f : MFile) :
    (syncStep coll now (st, rep, seen) f).2.2 = Store.handelize f.rel_path :: seen := by
  rcases hc : f.content with _ | content
  · rw [syncStep_skip coll now st rep seen f hc]
  · rcases hfind : st.find_active_document coll (Store.handelize f.rel_path)
      with _ | ⟨d0, eh, et⟩
    · rw [syncStep_new coll now st rep seen f content hc hfind]
    · by_cases heq : eh = Store.hash_content content
      · rw [heq] at hfind
        rw [syncStep_unchanged coll now st rep seen f content d0 et hc hfind]
      · rw [syncStep_updated coll now st rep seen f content d0 eh et hc hfind heq]

theorem syncStep_establish (coll now : String) (st : Catalog) (rep : SyncReport)
    (seen : List String) (f : MFile) (content : String) (hc : f.content = some content) :
    (syncStep coll now (st, rep, seen) f).1.find_active_document coll
        (Store.handelize f.rel_path) =
      some ((coll, Store.handelize f.rel_path), Store.hash_content content,
        Store.extract_title content) := by
  rcases hfind : st.find_active_document coll (Store.handelize f.rel_path)
    with _ | ⟨d0, eh, et⟩
  · rw [syncStep_new coll now st rep seen f content hc hfind]
    simp only
    exact find_active_insert_document _ coll _ _ _ _ _
  · have hd0 : d0 = (coll, Store.handelize f.rel_path) :=
      find_active_docid_eq st coll (Store.handelize f.rel_path) d0 eh et hfind
    by_cases heq : eh = Store.hash_content content
    · rw [heq] at hfind
      rw [syncStep_unchanged coll now st rep seen f content d0 et hc hfind]
      simp only
      by_cases hte : et ≠ Store.extract_title content
      · rw [if_pos hte]
        subst hd0
        exact find_active_update_document_title st coll (Store.handelize f.rel_path)
          (Store.extract_title content) now (Store.hash_content content) et _ hfind
      · rw [if_neg hte]
        have hteq : et = Store.extract_title content := not_not.mp hte
        rw [hfind, hd0, hteq]
    · rw [syncStep_updated coll now st rep seen f content d0 eh et hc hfind heq]
      simp only
      subst hd0
      apply find_active_update_document
      rw [find_active_insert_content, hfind]
      rfl

theorem syncFold_find_other (coll now : String) :
    ∀ (files : List MFile) (st : Catalog) (rep : SyncReport) (seen : List String) (p : String),
      (∀ f ∈ files, Store.handelize f.rel_path ≠ p) →
      (files.foldl (syncStep coll now) (st, rep, seen)).1.find_active_document coll p =
        st.find_active_document coll p := by
  intro files
  induction files with
  | nil => intro st rep seen p hall; rfl
  | cons f rest ih =>
    intro st rep seen p hall
    rw [List.foldl_cons]
    rcases hstep : syncStep coll now (st, rep, seen) f with ⟨st1, rep1, seen1⟩
    rw [ih st1 rep1 seen1 p (fun g hg => hall g (List.mem_cons_of_mem f hg))]
    have hone := syncStep_find_other coll now st rep seen f p
      (hall f (List.mem_cons_self f rest))
    rw [hstep] at hone
    exact hone

theorem syncFold_establishes (coll now : String) :
    ∀ (files : List MFile) (st : Catalog) (rep : SyncReport) (seen : List String)
      (f : MFile) (content : String),
      (files.map (fun g => Store.handelize g.rel_path)).Nodup →
      f ∈ files → f.content = some content →
      (files.foldl (syncStep coll now) (st, rep, seen)).1.find_active_document coll
          (Store.handelize f.rel_path) =
        some ((coll, Store.handelize f.rel_path), Store.hash_content content,
          Store.extract_title content) := by
  intro files
  induction files with
  | nil =>
    intro st rep seen f content _ hf
    exact absurd hf (List.not_mem_nil f)
  | cons g rest ih =>
    intro st rep seen f content hnd hf hc
    rw [List.map_cons, List.nodup_cons] at hnd
    rw [List.foldl_cons]
    rcases List.mem_cons.mp hf with hfg | hfr
    · subst hfg
      rcases hstep : syncStep coll now (st, rep, seen) f with ⟨st1, rep1, seen1⟩
      have hpres : ∀ e ∈ rest, Store.handelize e.rel_path ≠ Store.handelize f.rel_path := by
        intro e he hee
        exact hnd.1 (hee ▸ List.mem_map.mpr ⟨e, he, rfl⟩)
      rw [syncFold_find_other coll now rest st1 rep1 seen1 _ hpres]
      have hest := syncStep_establish coll now st rep seen f content hc
      rw [hstep] at hest
      exact hest
    · rcases hstep : syncStep coll now (st, rep, seen) g with ⟨st1, rep1, seen1⟩
      exact ih st1 rep1 seen1 f content hnd.2 hfr hc

theorem syncFold_seen (coll now : String) :
    ∀ (files : List MFile) (st : Catalog) (rep : SyncReport) (seen : List String),
      (files.foldl (syncStep coll now) (st, rep, seen)).2.2 =
        (files.map (fun f => Store.handelize f.rel_path)).reverse ++ seen := by
  intro files
  induction files with
  | nil => intro st rep seen; simp
  | cons f rest ih =>
    intro st rep seen
    rw [List.foldl_cons]
    rcases hstep : syncStep coll now (st, rep, seen) f with ⟨st1, rep1, seen1⟩
    have hseen := syncStep_seen coll now st rep seen f
    rw [hstep] at hseen
    simp only at hseen
    rw [ih st1 rep1 seen1, hseen]
    simp

/-- The pointwise effect of the removal pass on a catalog row: a row of the
synced collection whose path is in the snapshot but was not seen loses its
active flag; every other row is untouched. -/
def markInactive (coll : String) (L seen : List String) (d : Doc) : Doc :=
  if d.collection = coll ∧ d.path ∈ L ∧ d.path ∉ seen then { d with active := false } else d

theorem deactStep_fold_docs (coll : String) (seen : List String) :
    ∀ (L : List String) (st : Catalog) (k : Nat),
      ((L.foldl (deactStep coll seen) (st, k)).1).docs =
        st.docs.map (markInactive coll L seen) := by
  intro L
  induction L with
  | nil =>
    intro st k
    have hid : ∀ d ∈ st.docs, markInactive coll [] seen d = d := by
      intro d _
      simp [markInactive]
    rw [List.foldl_nil, List.map_congr_left hid]
    simp
  | cons q rest ih =>
    intro st k
    rw [List.foldl_cons]
    by_cases hq : seen.contains q = true
    · have hqmem : q ∈ seen := by simpa using hq
      rw [show deactStep coll seen (st, k) q = (st, k) from by simp [deactStep, hqmem]]
      rw [ih st k]
      apply List.map_congr_left
      intro d _
      unfold markInactive
      by_cases h1 : d.collection = coll ∧ d.path ∈ rest ∧ d.path ∉ seen
      · rw [if_pos h1, if_pos ⟨h1.1, List.mem_cons_of_mem q h1.2.1, h1.2.2⟩]
      · rw [if_neg h1, if_neg ?hcp]
        case hcp =>
          intro h2
          rcases List.mem_cons.mp h2.2.1 with hq2 | hrest
          · exact h2.2.2 (hq2 ▸ hqmem)
          · exact h1 ⟨h2.1, hrest, h2.2.2⟩
    · have hqnot : q ∉ seen := by
        intro hmem
        exact hq (by simpa using hmem)
      rw [show deactStep coll seen (st, k) q = (st.deactivate_document coll q, k + 1) from by
        simp [deactStep, hqnot]]
      rw [ih]
      unfold Catalog.deactivate_document
      simp only
      rw [List.map_map]
      apply List.map_congr_left
      intro d _
      simp only [Function.comp]
      by_cases hk : d.matchesKey coll q = true
      · have hkk := (matchesKey_iff d coll q).mp hk
        rw [if_pos hk]
        have hcond_out : d.collection = coll ∧ d.path ∈ q :: rest ∧ d.path ∉ seen :=
          ⟨hkk.1, by rw [hkk.2]; exact List.mem_cons_self q rest, by rw [hkk.2]; exact hqnot⟩
        unfold markInactive
        rw [if_pos hcond_out]
        split
        · rfl
        · rfl
      · rw [if_neg hk]
        unfold markInactive
        by_cases h2 : d.collection = coll ∧ d.path ∈ rest ∧ d.path ∉ seen
        · rw [if_pos h2, if_pos ⟨h2.1, List.mem_cons_of_mem q h2.2.1, h2.2.2⟩]
        · rw [if_neg h2, if_neg ?hcp2]
          case hcp2 =>
            intro h3
            rcases List.mem_cons.mp h3.2.1 with hq2 | hrest
            · exact hk ((matchesKey_iff d coll q).mpr ⟨h3.1, hq2⟩)
            · exact h2 ⟨h3.1, hrest, h3.2.2⟩

theorem deactStep_fold_count (coll : String) (seen : List String) :
    ∀ (L : List String) (st : Catalog) (k : Nat),
      (L.foldl (deactStep coll seen) (st, k)).2 =
        k + (L.filter (fun p => !(seen.contains p))).length := by
  intro L
  induction L with
  | nil => intro st k; simp
  | cons q rest ih =>
    intro st k
    rw [List.foldl_cons, List.filter_cons]
    by_cases hq : seen.contains q = true
    · have hqmem : q ∈ seen := by simpa using hq
      rw [show deactStep coll seen (st, k) q = (st, k) from by simp [deactStep, hqmem]]
      rw [ih st k]
      simp [hqmem]
    · have hqnot : q ∉ seen := by
        intro hmem
        exact hq (by simpa using hmem)
      rw [show deactStep coll seen (st, k) q = (st.deactivate_document coll q, k + 1) from by
        simp [deactStep, hqnot]]
      rw [ih]
      have hqf : (!seen.contains q) = true := by
        rcases hc : seen.contains q with _ | _
        · rfl
        · exact absurd hc hq
      rw [hqf]
      simp
      omega

theorem deactStep_fold_noop (coll : String) (seen : List String) :
    ∀ (L : List String) (st : Catalog) (k : Nat),
      (∀ p ∈ L, seen.contains p = true) →
      L.foldl (deactStep coll seen) (st, k) = (st, k) := by
  intro L
  induction L with
  | nil => intro st k _; rfl
  | cons q rest ih =>
    intro st k hall
    have hqmem : q ∈ seen := by simpa using hall q (List.mem_cons_self q rest)
    rw [List.foldl_cons,
      show deactStep coll seen (st, k) q = (st, k) from by simp [deactStep, hqmem]]
    exact ih st k (fun p hp => hall p (List.mem_cons_of_mem q hp))

theorem mem_active_paths (st : Catalog) (c p : String) :
    p ∈ st.get_active_document_paths c ↔
      ∃ d ∈ st.docs, d.collection = c ∧ d.active = true ∧ d.path = p := by
  unfold Catalog.get_active_document_paths
  simp only [List.mem_map, List.mem_filter, Bool.and_eq_true, beq_iff_eq]
  constructor
  · rintro ⟨d, ⟨hd, hc, ha⟩, rfl⟩
    exact ⟨d, hd, hc, ha, rfl⟩
  · rintro ⟨d, hd, hc, ha, rfl⟩
    exact ⟨d, ⟨hd, hc, ha⟩, rfl⟩

theorem deactivatePass_find_seen (coll : String) (seen : List String) (st : Catalog)
    (c p : String) (hp : p ∈ seen) :
    (deactivatePass coll seen st).1.find_active_document c p =
      st.find_active_document c p := by
  unfold deactivatePass Catalog.find_active_document
  rw [deactStep_fold_docs coll seen (st.get_active_document_paths coll) st 0]
  rw [find?_map_invariant _ _ ?h1 ?h2]
  case h1 =>
    intro d
    unfold markInactive
    by_cases hcond : d.collection = coll ∧
        d.path ∈ st.get_active_document_paths coll ∧ d.path ∉ seen
    · rw [if_pos hcond]
      have hleft : Doc.matchesActive { d with active := false } c p = false := by
        rcases hh : Doc.matchesActive { d with active := false } c p with _ | _
        · rfl
        · rw [matchesActive_iff] at hh
          simp at hh
      rw [hleft]
      rcases hh : d.matchesActive c p with _ | _
      · rfl
      · rw [matchesActive_iff] at hh
        exact absurd (hh.2.1 ▸ hp) hcond.2.2
    · rw [if_neg hcond]
  case h2 =>
    intro d hact
    unfold markInactive
    rw [matchesActive_iff] at hact
    rw [if_neg (fun hcond => hcond.2.2 (hact.2.1 ▸ hp))]

theorem deactivatePass_active_iff (coll : String) (seen : List String) (st : Catalog)
    (p : String) :
    p ∈ (deactivatePass coll seen st).1.get_active_document_paths coll ↔
      (p ∈ st.get_active_document_paths coll ∧ p ∈ seen) := by
  constructor
  · intro hmem
    obtain ⟨d', hd', hc', ha', hp'⟩ := (mem_active_paths _ coll p).mp hmem
    rw [show (deactivatePass coll seen st).1.docs =
        st.docs.map (markInactive coll (st.get_active_document_paths coll) seen) from
      deactStep_fold_docs coll seen (st.get_active_document_paths coll) st 0] at hd'
    rw [List.mem_map] at hd'
    obtain ⟨d, hd, rfl⟩ := hd'
    unfold markInactive at hc' ha' hp'
    by_cases hcond : d.collection = coll ∧
        d.path ∈ st.get_active_document_paths coll ∧ d.path ∉ seen
    · rw [if_pos hcond] at ha'
      simp at ha'
    · rw [if_neg hcond] at hc' ha' hp'
      have hmem0 : p ∈ st.get_active_document_paths coll :=
        (mem_active_paths st coll p).mpr ⟨d, hd, hc', ha', hp'⟩
      refine ⟨hmem0, ?_⟩
      by_contra hnot
      exact hcond ⟨hc', hp' ▸ hmem0, hp' ▸ hnot⟩
  · rintro ⟨hmem, hseen⟩
    obtain ⟨d, hd, hc, ha, hp2⟩ := (mem_active_paths st coll p).mp hmem
    refine (mem_active_paths _ coll p).mpr
      ⟨markInactive coll (st.get_active_document_paths coll) seen d, ?_, ?_, ?_, ?_⟩
    · rw [show (deactivatePass coll seen st).1.docs =
          st.docs.map (markInactive coll (st.get_active_document_paths coll) seen) from
        deactStep_fold_docs coll seen (st.get_active_document_paths coll) st 0]
      exact List.mem_map_of_mem _ hd
    · unfold markInactive
      split
      · simpa using hc
      · exact hc
    · unfold markInactive
      rw [if_neg (fun hcond => hcond.2.2 (hp2 ▸ hseen))]
      exact ha
    · unfold markInactive
      split
      · simpa using hp2
      · exact hp2

/-- Claim C1: for every file processed in a sync pass — if no active document
exists at (collection, normalized path) the content row is inserted before
the catalog row and the file counts as indexed; if an active document exists
with the same content hash the file counts as unchanged, with the title
updated exactly when it differs; if it exists with a different hash a new
content row is inserted, the catalog row's hash/title/modified_at are
updated, and the file counts as updated.  After the pass, the seen set is the
set of normalized paths of the enumerated files, a path stays active exactly
when it was active after the per-file loop and was seen, and the removed
count is the number of snapshot entries of active paths not seen. -/
theorem C1_sync_reconciliation (coll now : String) :
    (∀ (st : Catalog) (rep : SyncReport) (seen : List String) (f : MFile) (content : String),
      f.content = some content →
      (st.find_active_document coll (Store.handelize f.rel_path) = none →
        syncStep coll now (st, rep, seen) f =
          ((st.insert_content (Store.hash_content content) content now).insert_document coll
              (Store.handelize f.rel_path) (Store.extract_title content)
              (Store.hash_content content) now now,
            { rep with indexed := rep.indexed + 1 },
            Store.handelize f.rel_path :: seen)) ∧
      (∀ (d0 : Docid) (et : String),
        st.find_active_document coll (Store.handelize f.rel_path) =
            some (d0, Store.hash_content content, et) →
        syncStep coll now (st, rep, seen) f =
          ((if et ≠ Store.extract_title content then
              st.update_document_title d0 (Store.extract_title content) now
            else st),
            { rep with unchanged := rep.unchanged + 1 },
            Store.handelize f.rel_path :: seen)) ∧
      (∀ (d0 : Docid) (eh et : String),
        st.find_active_document coll (Store.handelize f.rel_path) = some (d0, eh, et) →
        eh ≠ Store.hash_content content →
        syncStep coll now (st, rep, seen) f =
          ((st.insert_content (Store.hash_content content) content now).update_document d0
              (Store.extract_title content) (Store.hash_content content) now,
            { rep with updated := rep.updated + 1 },
            Store.handelize f.rel_path :: seen))) ∧
    (∀ (st : Catalog) (files : List MFile) (st2 : Catalog) (rep : SyncReport),
      index_files coll now st files = some (st2, rep) →
      (∀ p, p ∈ (files.foldl (syncStep coll now) (st, ⟨0, 0, 0, 0⟩, [])).2.2 ↔
        p ∈ files.map (fun f => Store.handelize f.rel_path)) ∧
      (∀ p, p ∈ st2.get_active_document_paths coll ↔
        (p ∈ (files.foldl (syncStep coll now)
            (st, ⟨0, 0, 0, 0⟩, [])).1.get_active_document_paths coll ∧
          p ∈ (files.foldl (syncStep coll now) (st, ⟨0, 0, 0, 0⟩, [])).2.2)) ∧
      rep.removed =
        (((files.foldl (syncStep coll now)
            (st, ⟨0, 0, 0, 0⟩, [])).1.get_active_document_paths coll).filter
          (fun p => !((files.foldl (syncStep coll now)
            (st, ⟨0, 0, 0, 0⟩, [])).2.2.contains p))).length) := by
  constructor
  · intro st rep seen f content hc
    refine ⟨?_, ?_, ?_⟩
    · intro hfind
      exact syncStep_new coll now st rep seen f content hc hfind
    · intro d0 et hfind
      exact syncStep_unchanged coll now st rep seen f content d0 et hc hfind
    · intro d0 eh et hfind hne
      exact syncStep_updated coll now st rep seen f content d0 eh et hc hfind hne
  · intro st files st2 rep h
    by_cases hfe : files = []
    · rw [hfe] at h
      simp [index_files] at h
    · rcases hr : files.foldl (syncStep coll now) (st, ⟨0, 0, 0, 0⟩, [])
        with ⟨stA, repA, seenA⟩
      have hidx : index_files coll now st files =
          some ((deactivatePass coll seenA stA).1,
            { repA with removed := (deactivatePass coll seenA stA).2 }) := by
        simp only [index_files, if_neg hfe]
        rw [hr]
      rw [hidx] at h
      simp only [Option.some.injEq, Prod.mk.injEq] at h
      obtain ⟨hst2, hrep⟩ := h
      have hseenA : seenA = (files.map (fun f => Store.handelize f.rel_path)).reverse ++ [] := by
        have hs := syncFold_seen coll now files st ⟨0, 0, 0, 0⟩ []
        rw [hr] at hs
        exact hs
      refine ⟨?_, ?_, ?_⟩
      · intro p
        show p ∈ seenA ↔ _
        rw [hseenA]
        simp
      · intro p
        show p ∈ st2.get_active_document_paths coll ↔
          p ∈ stA.get_active_document_paths coll ∧ p ∈ seenA
        rw [← hst2]
        exact deactivatePass_active_iff coll seenA stA p
      · show rep.removed =
          ((stA.get_active_document_paths coll).filter
            (fun p => !(seenA.contains p))).length
        rw [← hrep]
        show (deactivatePass coll seenA stA).2 = _
        unfold deactivatePass
        rw [deactStep_fold_count coll seenA (stA.get_active_document_paths coll) stA 0]
        omega

/-- Claim C1 witness: indexing a new file into an empty catalog takes the
indexed branch — content inserted first, then the catalog row, and the
indexed counter bumped. -/
theorem C1_sync_reconciliation_witness :
    syncStep "notes" "t0" (⟨[], []⟩, ⟨0, 0, 0, 0⟩, []) ⟨"a.md", some "hi"⟩ =
      ((Catalog.insert_content ⟨[], []⟩ (Store.hash_content "hi") "hi" "t0").insert_document
          "notes" (Store.handelize "a.md") (Store.extract_title "hi")
          (Store.hash_content "hi") "t0" "t0",
        ⟨1, 0, 0, 0⟩, [Store.handelize "a.md"]) :=
  ((C1_sync_reconciliation "notes" "t0").1 ⟨[], []⟩ ⟨0, 0, 0, 0⟩ [] ⟨"a.md", some "hi"⟩
    "hi" rfl).1 rfl

theorem syncFold_find_skipped (coll now : String) :
    ∀ (files : List MFile) (st : Catalog) (rep : SyncReport) (seen : List String) (f : MFile),
      (files.map (fun g => Store.handelize g.rel_path)).Nodup →
      f ∈ files → f.content = none →
      (files.foldl (syncStep coll now) (st, rep, seen)).1.find_active_document coll
          (Store.handelize f.rel_path) =
        st.find_active_document coll (Store.handelize f.rel_path) := by
  intro files
  induction files with
  | nil =>
    intro st rep seen f _ hf
    exact absurd hf (List.not_mem_nil f)
  | cons g rest ih =>
    intro st rep seen f hnd hf hc
    rw [List.map_cons, List.nodup_cons] at hnd
    rw [List.foldl_cons]
    rcases List.mem_cons.mp hf with hfg | hfr
    · subst hfg
      rw [syncStep_skip coll now st rep seen f hc]
      have hpres : ∀ e ∈ rest, Store.handelize e.rel_path ≠ Store.handelize f.rel_path := by
        intro e he hee
        exact hnd.1 (hee ▸ List.mem_map.mpr ⟨e, he, rfl⟩)
      exact syncFold_find_other coll now rest st rep _ _ hpres
    · rcases hstep : syncStep coll now (st, rep, seen) g with ⟨st1, rep1, seen1⟩
      have hone := syncStep_find_other coll now st rep seen g (Store.handelize f.rel_path)
        (by
          intro hee
          exact hnd.1 (hee ▸ List.mem_map.mpr ⟨f, hfr, rfl⟩))
      rw [hstep] at hone
      rw [ih st1 rep1 seen1 f hnd.2 hfr hc]
      exact hone

/-- Claim C5: a file matching the glob but unreadable (or not UTF-8) is
skipped with its prior catalog state untouched — the per-file step leaves the
store and the counters unchanged while still marking the path as seen, and
over a whole pass the document at that path (active or not, hash and title
included) is exactly what it was before, in particular never deactivated by
the end-of-pass removal step; and a path seen in the walk that is active
after the per-file loop is never deactivated. -/
theorem C5_unreadable_file_skip (coll now : String) :
    (∀ (st : Catalog) (rep : SyncReport) (seen : List String) (f : MFile),
      f.content = none →
      syncStep coll now (st, rep, seen) f = (st, rep, Store.handelize f.rel_path :: seen)) ∧
    (∀ (st : Catalog) (files : List MFile) (f : MFile) (st2 : Catalog) (rep : SyncReport),
      (files.map (fun g => Store.handelize g.rel_path)).Nodup →
      f ∈ files → f.content = none →
      index_files coll now st files = some (st2, rep) →
      st2.find_active_document coll (Store.handelize f.rel_path) =
        st.find_active_document coll (Store.handelize f.rel_path)) ∧
    (∀ (st : Catalog) (files : List MFile) (st2 : Catalog) (rep : SyncReport) (p : String),
      index_files coll now st files = some (st2, rep) →
      p ∈ files.map (fun g => Store.handelize g.rel_path) →
      p ∈ (files.foldl (syncStep coll now)
          (st, ⟨0, 0, 0, 0⟩, [])).1.get_active_document_paths coll →
      p ∈ st2.get_active_document_paths coll) := by
  refine ⟨?_, ?_, ?_⟩
  · intro st rep seen f hc
    exact syncStep_skip coll now st rep seen f hc
  · intro st files f st2 rep hnd hf hc h
    by_cases hfe : files = []
    · rw [hfe] at hf
      exact absurd hf (List.not_mem_nil f)
    · rcases hr : files.foldl (syncStep coll now) (st, ⟨0, 0, 0, 0⟩, [])
        with ⟨stA, repA, seenA⟩
      have hidx : index_files coll now st files =
          some ((deactivatePass coll seenA stA).1,
            { repA with removed := (deactivatePass coll seenA stA).2 }) := by
        simp only [index_files, if_neg hfe]
        rw [hr]
      rw [hidx] at h
      simp only [Option.some.injEq, Prod.mk.injEq] at h
      obtain ⟨hst2, _⟩ := h
      have hseenA : seenA =
          (files.map (fun g => Store.handelize g.rel_path)).reverse ++ [] := by
        have hs := syncFold_seen coll now files st ⟨0, 0, 0, 0⟩ []
        rw [hr] at hs
        exact hs
      rw [← hst2]
      rw [deactivatePass_find_seen coll seenA stA coll (Store.handelize f.rel_path)
        (by rw [hseenA]; simp; exact ⟨f, hf, rfl⟩)]
      have hp := syncFold_find_skipped coll now files st ⟨0, 0, 0, 0⟩ [] f hnd hf hc
      rw [hr] at hp
      exact hp
  · intro st files st2 rep p h hmem hact
    by_cases hfe : files = []
    · rw [hfe] at hmem
      simp at hmem
    · rcases hr : files.foldl (syncStep coll now) (st, ⟨0, 0, 0, 0⟩, [])
        with ⟨stA, repA, seenA⟩
      have hidx : index_files coll now st files =
          some ((deactivatePass coll seenA stA).1,
            { repA with removed := (deactivatePass coll seenA stA).2 }) := by
        simp only [index_files, if_neg hfe]
        rw [hr]
      rw [hidx] at h
      simp only [Option.some.injEq, Prod.mk.injEq] at h
      obtain ⟨hst2, _⟩ := h
      have hseenA : seenA =
          (files.map (fun g => Store.handelize g.rel_path)).reverse ++ [] := by
        have hs := syncFold_seen coll now files st ⟨0, 0, 0, 0⟩ []
        rw [hr] at hs
        exact hs
      rw [← hst2]
      rw [hr] at hact
      refine (deactivatePass_active_iff coll seenA stA p).mpr ⟨hact, ?_⟩
      rw [hseenA]
      simpa using hmem

/-- Claim C5 witness: the per-file step at a concrete unreadable file leaves
the store and counters untouched while marking the path seen. -/
theorem C5_unreadable_file_skip_witness :
    syncStep "notes" "t0"
        ((⟨[], [⟨"notes", "a.md", "T", "h1", true, "t", "t"⟩]⟩ : Catalog),
          (⟨0, 0, 0, 0⟩ : SyncReport), ([] : List String)) ⟨"a.md", none⟩ =
      (⟨[], [⟨"notes", "a.md", "T", "h1", true, "t", "t"⟩]⟩, ⟨0, 0, 0, 0⟩,
        [Store.handelize "a.md"]) :=
  (C5_unreadable_file_skip "notes" "t0").1 ⟨[], [⟨"notes", "a.md", "T", "h1", true, "t", "t"⟩]⟩
    ⟨0, 0, 0, 0⟩ [] ⟨"a.md", none⟩ rfl

theorem syncFold_unchanged (coll now : String) :
    ∀ (files : List MFile) (st : Catalog) (rep : SyncReport) (seen : List String),
      (∀ f ∈ files, ∀ c : String, f.content = some c →
        st.find_active_document coll (Store.handelize f.rel_path) =
          some ((coll, Store.handelize f.rel_path), Store.hash_content c,
            Store.extract_title c)) →
      files.foldl (syncStep coll now) (st, rep, seen) =
        (st, { rep with unchanged :=
            rep.unchanged + (files.filter (fun f => f.content.isSome)).length },
          (files.map (fun f => Store.handelize f.rel_path)).reverse ++ seen) := by
  intro files
  induction files with
  | nil =>
    intro st rep seen _
    simp
  | cons f rest ih =>
    intro st rep seen hall
    rcases hc : f.content with _ | c
    · rw [List.foldl_cons, syncStep_skip coll now st rep seen f hc,
        ih st rep _ (fun g hg c2 hc2 => hall g (List.mem_cons_of_mem f hg) c2 hc2),
        List.filter_cons]
      simp [hc]
    · have hfind := hall f (List.mem_cons_self f rest) c hc
      rw [List.foldl_cons,
        syncStep_unchanged coll now st rep seen f c (coll, Store.handelize f.rel_path)
          (Store.extract_title c) hc hfind,
        if_neg (fun hne => hne rfl),
        ih st { rep with unchanged := rep.unchanged + 1 } _
          (fun g hg c2 hc2 => hall g (List.mem_cons_of_mem f hg) c2 hc2),
        List.filter_cons]
      have hn : rep.unchanged + 1 +
          (rest.filter (fun f => f.content.isSome)).length =
          rep.unchanged + ((rest.filter (fun f => f.content.isSome)).length + 1) := by
        omega
      simp [hc, hn]

/-- Claim C2: sync is idempotent — after a sync pass over an unchanged tree
of files with distinct normalized paths (unreadable files included), running
the pass again reports 0 indexed, 0 updated, N unchanged (N the number of
matched readable files) and 0 deactivated, and leaves the catalog state
unchanged. -/
theorem C2_sync_idempotent :
    ∀ (coll now now2 : String) (st : Catalog) (files : List MFile) (st1 : Catalog)
      (rep1 : SyncReport),
      (files.map (fun f => Store.handelize f.rel_path)).Nodup →
      index_files coll now st files = some (st1, rep1) →
      index_files coll now2 st1 files =
        some (st1, ⟨0, 0, (files.filter (fun f => f.content.isSome)).length, 0⟩) := by
  intro coll now now2 st files st1 rep1 hnd h
  by_cases hfe : files = []
  · rw [hfe] at h
    simp [index_files] at h
  · rcases hr : files.foldl (syncStep coll now) (st, ⟨0, 0, 0, 0⟩, [])
      with ⟨stA, repA, seenA⟩
    have hidx : index_files coll now st files =
        some ((deactivatePass coll seenA stA).1,
          { repA with removed := (deactivatePass coll seenA stA).2 }) := by
      simp only [index_files, if_neg hfe]
      rw [hr]
    rw [hidx] at h
    simp only [Option.some.injEq, Prod.mk.injEq] at h
    obtain ⟨hst1, _⟩ := h
    have hseenA : seenA =
        (files.map (fun f => Store.handelize f.rel_path)).reverse ++ [] := by
      have hs := syncFold_seen coll now files st ⟨0, 0, 0, 0⟩ []
      rw [hr] at hs
      exact hs
    have hinv : ∀ f ∈ files, ∀ c : String, f.content = some c →
        st1.find_active_document coll (Store.handelize f.rel_path) =
          some ((coll, Store.handelize f.rel_path), Store.hash_content c,
            Store.extract_title c) := by
      intro f hf c hcf
      rw [← hst1]
      rw [deactivatePass_find_seen coll seenA stA coll (Store.handelize f.rel_path)
        (by rw [hseenA]; simp; exact ⟨f, hf, rfl⟩)]
      have hest := syncFold_establishes coll now files st ⟨0, 0, 0, 0⟩ [] f c hnd hf hcf
      rw [hr] at hest
      exact hest
    have hfold2 := syncFold_unchanged coll now2 files st1 ⟨0, 0, 0, 0⟩ [] hinv
    have hsub : ∀ p ∈ st1.get_active_document_paths coll,
        (((files.map (fun f => Store.handelize f.rel_path)).reverse ++
          ([] : List String)).contains p) = true := by
      intro p hp2
      rw [← hst1] at hp2
      have hiff := (deactivatePass_active_iff coll seenA stA p).mp hp2
      have hpseen : p ∈ seenA := hiff.2
      rw [hseenA] at hpseen
      simpa using hpseen
    simp only [index_files, if_neg hfe]
    rw [hfold2]
    unfold deactivatePass
    rw [deactStep_fold_noop coll _ (st1.get_active_document_paths coll) st1 0 hsub]
    simp only [Nat.zero_add]

/-- Claim C2 witness: a second sync pass over a tree of one unchanged
readable file and one unreadable file reports 0 indexed, 0 updated, 1
unchanged (the matched readable file), 0 removed and leaves the catalog as
is. -/
theorem C2_sync_idempotent_witness :
    index_files "notes" "t1"
        ⟨[⟨"sha256:hi", "hi", "t0"⟩],
          [⟨"notes", "a.md", "Untitled", "sha256:hi", true, "t0", "t0"⟩]⟩
        [⟨"a.md", some "hi"⟩, ⟨"b.md", none⟩] =
      some (⟨[⟨"sha256:hi", "hi", "t0"⟩],
          [⟨"notes", "a.md", "Untitled", "sha256:hi", true, "t0", "t0"⟩]⟩,
        ⟨0, 0, 1, 0⟩) :=
  C2_sync_idempotent "notes" "t0" "t1" ⟨[], []⟩
    [⟨"a.md", some "hi"⟩, ⟨"b.md", none⟩]
    ⟨[⟨"sha256:hi", "hi", "t0"⟩],
      [⟨"notes", "a.md", "Untitled", "sha256:hi", true, "t0", "t0"⟩]⟩
    ⟨1, 0, 0, 0⟩ (by decide) (by decide)
